import Mathlib

/-!
Verification development for the ssb-nudb-config repository.

The Python sources are shallowly embedded: dictionaries parsed from TOML
become association lists over an inductive value universe, Pydantic model
instances become tagged field lists, and functions that raise exceptions
return Except values.  TOML has no null and the repository uses no float
in any behaviour the claims mention, so the value universe models the
TOML scalars the code actually distinguishes (strings, integers,
booleans), plus lists and tables.
-/

set_option maxHeartbeats 1000000

namespace NudbConfig

/-! ## Cycle detection (tests/test_cyclic_derivation_dependencies.py)

The derivation graph is a mapping from a variable name to the list of
names it is derived from.  Python dicts are embedded as association
lists; lookup takes the first matching key, as a dict with unique keys
would.  The Python recursion terminates because the visited set grows by
one graph key at every level, so the recursion depth is bounded by the
number of graph entries; the embedding makes that bound explicit as a
fuel parameter that is always sufficient at the entry points.  -/

abbrev DerivedGraph := List (String × List String)

def lookupDeps (g : DerivedGraph) (v : String) : Option (List String) :=
  match g with
  | [] => none
  | (k, deps) :: rest => if k = v then some deps else lookupDeps rest v

/-- Embedding of variable_is_cyclic_depth_first_search with
fail_on_cyclic=False.  The visited set is the current traversal path. -/
def variable_is_cyclic_depth_first_search
    (g : DerivedGraph) : Nat → List String → String → Bool
  | 0, _, _ => false
  | fuel + 1, visited, v =>
    if visited.contains v then true
    else
      match lookupDeps g v with
      | none => false
      | some deps =>
        deps.any (fun w => variable_is_cyclic_depth_first_search g fuel (v :: visited) w)

/-- Fuel that is always sufficient: one more than the number of graph
entries, which bounds the number of distinct keys.  -/
def dfsFuel (g : DerivedGraph) : Nat := g.length + 1

/-- Embedding of is_cyclic_depth_first_search with fail_on_cyclic=False. -/
def is_cyclic_depth_first_search (g : DerivedGraph) : Bool :=
  (g.map Prod.fst).any (fun v => variable_is_cyclic_depth_first_search g (dfsFuel g) [] v)

/-- Sequential short-circuiting loop over a list of fallible checks:
stops at the first exception or first true result, mirroring the Python
for-loops in both DFS functions when fail_on_cyclic=True. -/
def anyE (f : String → Except String Bool) : List String → Except String Bool
  | [] => Except.ok false
  | x :: xs =>
    match f x with
    | Except.error e => Except.error e
    | Except.ok true => Except.ok true
    | Except.ok false => anyE f xs

/-- Embedding of variable_is_cyclic_depth_first_search with
fail_on_cyclic=True: instead of returning true when a node on the current
path is revisited, it raises CyclicGraphError; the error value carries
the name of the variable found depending on itself. -/
def variable_is_cyclic_dfs_fail
    (g : DerivedGraph) : Nat → List String → String → Except String Bool
  | 0, _, _ => Except.ok false
  | fuel + 1, visited, v =>
    if visited.contains v then Except.error v
    else
      match lookupDeps g v with
      | none => Except.ok false
      | some deps =>
        anyE (fun w => variable_is_cyclic_dfs_fail g fuel (v :: visited) w) deps

/-- Embedding of is_cyclic_depth_first_search with fail_on_cyclic=True. -/
def is_cyclic_dfs_fail (g : DerivedGraph) : Except String Bool :=
  anyE (fun v => variable_is_cyclic_dfs_fail g (dfsFuel g) [] v) (g.map Prod.fst)

/-- Edge relation of the derivation graph: a depends directly on b. -/
def GEdge (g : DerivedGraph) (a b : String) : Prop :=
  ∃ deps, lookupDeps g a = some deps ∧ b ∈ deps

/-- The graph has a directed cycle: a nonempty edge path from some node
back to itself. -/
def HasCycle (g : DerivedGraph) : Prop :=
  ∃ v l, List.Chain (GEdge g) v l ∧ l.getLast? = some v

/-- Example graph from the spec and tests: cyclic. -/
def exCyclicGraph : DerivedGraph :=
  [("a", ["b"]), ("b", ["c", "d"]), ("c", ["e"]), ("e", ["a"])]

/-- Example graph from the spec and tests: acyclic. -/
def exAcyclicGraph : DerivedGraph :=
  [("a", ["b"]), ("b", ["c", "d"]), ("c", ["e"]), ("e", ["f"])]

/-- Measure showing the Python recursion terminates: the number of
distinct graph keys not yet on the traversal path. -/
def remKeys (g : DerivedGraph) (visited : List String) : Nat :=
  ((g.map Prod.fst).dedup.filter (fun k => !visited.contains k)).length



/-! ## Value universe: parsed TOML data -/

inductive Value where
  | vNone
  | vStr (s : String)
  | vInt (n : Int)
  | vBool (b : Bool)
  | vList (xs : List Value)
  | vDict (es : List (String × Value))
deriving Repr

/-- Python str.strip: whitespace removed from both ends. -/
def pyStrip (s : String) : String :=
  String.mk (((s.data.dropWhile Char.isWhitespace).reverse.dropWhile Char.isWhitespace).reverse)

/-- Python str.lower (the names compared here are ASCII). -/
def pyLower (s : String) : String := String.mk (s.data.map Char.toLower)

/-- Embedding of load._is_none_sentinel: None, or a string whose trimmed
lowercase form is exactly none. -/
def _is_none_sentinel : Value → Bool
  | .vNone => true
  | .vStr s => pyLower (pyStrip s) == "none"
  | _ => false

/-- Tags for the Pydantic model classes of the repository. -/
inductive MType where
  | mVariable | mDataset | mPathEntry | mSettingsFile | mOptionEntry | mNudbConfig
deriving DecidableEq, Repr

/-- Value types a DotMapDict can be declared with. vtFloat and vtStr have no
model_validate attribute; vtNone is a DotMapDict built without value_type. -/
inductive VType where
  | vtNone | vtVariable | vtDataset | vtPathEntry | vtStr | vtFloat
deriving DecidableEq, Repr

/-- Runtime objects of the configuration graph: plain scalars and lists,
Pydantic model instances, plain dicts, and DotMapDict instances. -/
inductive Obj where
  | prim (v : Value)
  | omodel (t : MType) (fields : List (String × Obj))
  | odict (es : List (String × Obj))
  | odmap (vt : VType) (es : List (String × Obj))
deriving Repr

/-- Declared model_fields of each Pydantic model, in declaration order. -/
def MType.modelFields : MType → List String
  | .mVariable =>
    ["name", "unit", "dtype", "description_short", "length",
     "klass_codelist", "klass_codelist_from_date", "klass_variant",
     "klass_variant_search_term", "klass_correspondence_to",
     "klass_codelist_metadata", "klass_variant_metadata", "renamed_from",
     "derived_from", "derived_uses_datasets", "derived_join_keys",
     "derived_values_priority", "codelist_extras", "outdated_comment"]
  | .mDataset =>
    ["team", "bucket", "path_glob", "variables", "thresholds_empty",
     "min_values", "max_values", "dataset_specific_renames"]
  | .mPathEntry => ["katalog", "delt_utdanning"]
  | .mSettingsFile => ["dapla_team", "short_name", "utd_nacekoder"]
  | .mOptionEntry => ["warn_unsafe_derive"]
  | .mNudbConfig =>
    ["dapla_team", "short_name", "variables_sort_unit", "variables",
     "datasets", "paths", "options"]

/-! ## Association-list primitives standing in for Python dicts.
Lookup takes the first match; assignment replaces the first match in place
or appends; deletion removes the key.  With unique keys these are exactly
dict semantics. -/

def lookupKey {α : Type} : List (String × α) → String → Option α
  | [], _ => none
  | (k, v) :: rest, key => if k = key then some v else lookupKey rest key

def containsKey {α : Type} (es : List (String × α)) (k : String) : Bool :=
  (lookupKey es k).isSome

def setKey {α : Type} : List (String × α) → String → α → List (String × α)
  | [], key, v => [(key, v)]
  | (k, w) :: rest, key, v =>
    if k = key then (k, v) :: rest else (k, w) :: setKey rest key v

def eraseKey {α : Type} (es : List (String × α)) (k : String) : List (String × α) :=
  es.filter (fun p => p.1 ≠ k)

mutual
/-- How a parsed TOML value is stored in the object graph: tables become
plain dicts, everything else is a plain scalar or list. -/
def Obj.ofValue : Value → Obj
  | .vDict es => .odict (Obj.ofValueEntries es)
  | .vNone => .prim .vNone
  | .vStr s => .prim (.vStr s)
  | .vInt n => .prim (.vInt n)
  | .vBool b => .prim (.vBool b)
  | .vList xs => .prim (.vList xs)

def Obj.ofValueEntries : List (String × Value) → List (String × Obj)
  | [] => []
  | (k, v) :: rest => (k, Obj.ofValue v) :: Obj.ofValueEntries rest
end

mutual
/-- Structural equality of parsed values, standing in for Python ==. -/
def valueBeq : Value → Value → Bool
  | .vNone, .vNone => true
  | .vStr a, .vStr b => a == b
  | .vInt a, .vInt b => a == b
  | .vBool a, .vBool b => a == b
  | .vList xs, .vList ys => valueListBeq xs ys
  | .vDict es, .vDict ds => valueEntriesBeq es ds
  | _, _ => false

def valueListBeq : List Value → List Value → Bool
  | [], [] => true
  | x :: xs, y :: ys => valueBeq x y && valueListBeq xs ys
  | _, _ => false

def valueEntriesBeq : List (String × Value) → List (String × Value) → Bool
  | [], [] => true
  | (k1, v1) :: r1, (k2, v2) :: r2 => k1 == k2 && valueBeq v1 v2 && valueEntriesBeq r1 r2
  | _, _ => false
end

mutual
/-- Python == between a stored object and an incoming parsed value: scalars
compare structurally; a plain dict compares to a table by key lookup; a
model or a DotMapDict never equals a parsed value (Pydantic equality
requires the same class, DotMapDict falls back to identity). -/
def objEqValue : Obj → Value → Bool
  | .prim p, v => valueBeq p v
  | .odict es, .vDict ds => es.length == ds.length && dictEqEntries es ds
  | _, _ => false

def dictEqEntries : List (String × Obj) → List (String × Value) → Bool
  | _, [] => true
  | es, (k, dv) :: rest =>
    match lookupKey es k with
    | some o => objEqValue o dv && dictEqEntries es rest
    | none => false
end

/-! ## Pydantic model validation (variables.py, datasets.py, paths.py,
options.py, settings.py).  model_validate receives a parsed mapping and
either returns a model instance with every declared field present
(absent optional fields default to None) or raises a validation error.
Unknown input keys are ignored (Pydantic default).  Numeric TOML float
literals are modelled as integers: no claim depends on float semantics. -/

def isStrObj : Obj → Bool
  | .prim (.vStr _) => true
  | _ => false

def isIntObj : Obj → Bool
  | .prim (.vInt _) => true
  | _ => false

def isBoolObj : Obj → Bool
  | .prim (.vBool _) => true
  | _ => false

def isVStr : Value → Bool
  | .vStr _ => true
  | _ => false

def isVInt : Value → Bool
  | .vInt _ => true
  | _ => false

def isStrListObj : Obj → Bool
  | .prim (.vList xs) => xs.all isVStr
  | _ => false

def isIntListObj : Obj → Bool
  | .prim (.vList xs) => xs.all isVInt
  | _ => false

def isStrDictObj : Obj → Bool
  | .odict es => es.all (fun p => isStrObj p.2)
  | _ => false

/-- Check an optional field: absent or None is fine, a present value must
satisfy the shape predicate. -/
def optOk (p : Obj → Bool) (es : List (String × Obj)) (k : String) : Bool :=
  match lookupKey es k with
  | none => true
  | some (.prim .vNone) => true
  | some o => p o

def guardB (b : Bool) (msg : String) : Except String Unit :=
  if b then Except.ok () else Except.error msg

/-- A required string field. -/
def reqStr (es : List (String × Obj)) (k : String) : Except String String :=
  match lookupKey es k with
  | some (.prim (.vStr s)) => Except.ok s
  | some _ => Except.error (k ++ ": expected a string")
  | none => Except.error (k ++ ": field required")

/-- The value stored for a schema field: the given value, else the None
default. -/
def fieldOrNone (es : List (String × Obj)) (k : String) : Obj :=
  (lookupKey es k).getD (Obj.prim Value.vNone)

def allowedDtypes : List String :=
  ["INTEGER", "FLOAT", "STRING", "DATETIME", "BOOLEAN"]

/-- Shape checks for every optional declared Variable field (the
Pydantic field-type validation).  The checks run in declaration order and
the first failure raises; only the raised-or-not outcome is ever observed,
so the per-field messages are collapsed into one. -/
def Variable.optionalFieldsOk (es : List (String × Obj)) : Bool :=
  optOk isStrObj es "description_short"
    && optOk isIntListObj es "length"
    && optOk isIntObj es "klass_codelist"
    && optOk isStrObj es "klass_codelist_from_date"
    && optOk isIntObj es "klass_variant"
    && optOk isStrObj es "klass_variant_search_term"
    && optOk isIntObj es "klass_correspondence_to"
    && optOk isStrListObj es "renamed_from"
    && optOk isStrListObj es "derived_from"
    && optOk isStrListObj es "derived_uses_datasets"
    && optOk isStrListObj es "derived_join_keys"
    && optOk isStrObj es "derived_values_priority"
    && optOk isStrDictObj es "codelist_extras"
    && optOk isStrObj es "outdated_comment"

/-- The condition _require_outdated_comment_when_utdatert enforces when
unit is utdatert: outdated_comment present, a string and not blank. -/
def utdatertCommentOk (es : List (String × Obj)) : Bool :=
  match lookupKey es "outdated_comment" with
  | some (.prim (.vStr s)) => !(pyStrip s == "")
  | _ => false

/-- The condition _require_klass_codelist_to_be_positive_int enforces:
absent or None passes, a filled value must be an integer of 0 or above. -/
def klassCodelistOk (es : List (String × Obj)) : Bool :=
  match lookupKey es "klass_codelist" with
  | some (.prim (.vInt n)) => decide (0 ≤ n)
  | _ => true

/-- Field and validator checks of Variable, in source order: the three
required string fields, the dtype literal, the optional field shapes, then
the two model validators. -/
def Variable.fieldChecks (es : List (String × Obj)) : Except String Unit :=
  match lookupKey es "name", lookupKey es "unit", lookupKey es "dtype" with
  | some (.prim (.vStr _)), some (.prim (.vStr unit)), some (.prim (.vStr dtype)) =>
    if !(allowedDtypes.contains dtype) then
      Except.error "dtype: not a permitted literal"
    else if !(Variable.optionalFieldsOk es) then
      Except.error "a field has an unexpected type"
    else if unit = "utdatert" && !(utdatertCommentOk es) then
      Except.error "outdated_comment is required when unit is utdatert and cannot be blank"
    else if !(klassCodelistOk es) then
      Except.error "If klass_codelist is filled, it must be an int of 0 or above"
    else Except.ok ()
  | _, _, _ => Except.error "name, unit and dtype are required string fields"

/-- The field list of a validated Variable: every declared field, taking
the given value or the None default. -/
def Variable.varFields (es : List (String × Obj)) : List (String × Obj) :=
  MType.mVariable.modelFields.map (fun f => (f, fieldOrNone es f))

/-- Embedding of Variable construction / model_validate: field checks for
every declared field plus the two model validators
(_require_outdated_comment_when_utdatert and
_require_klass_codelist_to_be_positive_int), then the instance.  An
existing instance passes through, as Pydantic model_validate does with
revalidate_instances at its default. -/
def Variable.model_validate : Obj → Except String Obj
  | .omodel .mVariable fs => Except.ok (.omodel .mVariable fs)
  | .odict es =>
    (Variable.fieldChecks es).map (fun _ => .omodel .mVariable (Variable.varFields es))
  | _ => Except.error "Variable: expected a mapping"

/-- An optional field holding a mapping that Pydantic validates into a
typed DotMapDict with the given value type. -/
def asDMapField (vt : VType) (p : Obj → Bool) (msg : String) :
    Option Obj → Except String Obj
  | none => Except.ok (.prim .vNone)
  | some (.prim .vNone) => Except.ok (.prim .vNone)
  | some (.odmap vt2 es) => Except.ok (.odmap vt2 es)
  | some (.odict es) =>
    if es.all (fun q => p q.2) then Except.ok (.odmap vt es) else Except.error msg
  | some _ => Except.error msg

/-- Required and shape checks of Dataset fields, in source order. -/
def Dataset.fieldChecks (es : List (String × Obj)) : Except String Unit := do
  let _ ← reqStr es "team"
  let _ ← reqStr es "bucket"
  let _ ← reqStr es "path_glob"
  guardB (optOk isStrListObj es "variables") "variables: expected a list of strings"

/-- Validation of the four typed sub-mappings of a Dataset. -/
def Dataset.subMaps (es : List (String × Obj)) : Except String (Obj × Obj × Obj × Obj) := do
  let th ← asDMapField .vtFloat isIntObj "thresholds_empty: expected a mapping of numbers" (lookupKey es "thresholds_empty")
  let mn ← asDMapField .vtStr isStrObj "min_values: expected a mapping of strings" (lookupKey es "min_values")
  let mx ← asDMapField .vtStr isStrObj "max_values: expected a mapping of strings" (lookupKey es "max_values")
  let rn ← asDMapField .vtStr isStrObj "dataset_specific_renames: expected a mapping of strings" (lookupKey es "dataset_specific_renames")
  Except.ok (th, mn, mx, rn)

/-- Embedding of Dataset model_validate. -/
def Dataset.model_validate : Obj → Except String Obj
  | .omodel .mDataset fs => Except.ok (.omodel .mDataset fs)
  | .odict es => do
    let _ ← Dataset.fieldChecks es
    let sm ← Dataset.subMaps es
    Except.ok (.omodel .mDataset
      [("team", fieldOrNone es "team"), ("bucket", fieldOrNone es "bucket"),
       ("path_glob", fieldOrNone es "path_glob"),
       ("variables", fieldOrNone es "variables"),
       ("thresholds_empty", sm.1), ("min_values", sm.2.1), ("max_values", sm.2.2.1),
       ("dataset_specific_renames", sm.2.2.2)])
  | _ => Except.error "Dataset: expected a mapping"

/-- Embedding of PathEntry model_validate: katalog is optional, and
delt_utdanning is a string defaulting to the empty string. -/
def PathEntry.model_validate : Obj → Except String Obj
  | .omodel .mPathEntry fs => Except.ok (.omodel .mPathEntry fs)
  | .odict es => do
    let _ ← guardB (optOk isStrObj es "katalog") "katalog: expected a string"
    let delt ←
      match lookupKey es "delt_utdanning" with
      | none => Except.ok (Obj.prim (Value.vStr ""))
      | some (.prim (.vStr s)) => Except.ok (Obj.prim (Value.vStr s))
      | some _ => Except.error "delt_utdanning: expected a string"
    Except.ok (.omodel .mPathEntry
      [("katalog", fieldOrNone es "katalog"), ("delt_utdanning", delt)])
  | _ => Except.error "PathEntry: expected a mapping"

/-- Embedding of OptionEntry model_validate (options.py). -/
def OptionEntry.model_validate : Obj → Except String Obj
  | .omodel .mOptionEntry fs => Except.ok (.omodel .mOptionEntry fs)
  | .odict es =>
    match lookupKey es "warn_unsafe_derive" with
    | some (.prim (.vBool b)) =>
      Except.ok (.omodel .mOptionEntry [("warn_unsafe_derive", .prim (.vBool b))])
    | some _ => Except.error "warn_unsafe_derive: expected a boolean"
    | none => Except.error "warn_unsafe_derive: field required"
  | _ => Except.error "OptionEntry: expected a mapping"

/-- Embedding of DotMapDict value coercion (_coerce_value): no declared
value type returns the value unchanged; an instance of the declared type is
kept; a type carrying model_validate coerces through it; a primitive value
type (float, str) has no model_validate, so the value is returned
unchanged. -/
def VType.isInstance : VType → Obj → Bool
  | .vtVariable, .omodel .mVariable _ => true
  | .vtDataset, .omodel .mDataset _ => true
  | .vtPathEntry, .omodel .mPathEntry _ => true
  | .vtStr, .prim (.vStr _) => true
  | _, _ => false

def coerceVT : VType → Obj → Except String Obj
  | .vtNone, v => Except.ok v
  | vt, v =>
    if vt.isInstance v then Except.ok v
    else
      match vt with
      | .vtVariable => Variable.model_validate v
      | .vtDataset => Dataset.model_validate v
      | .vtPathEntry => PathEntry.model_validate v
      | _ => Except.ok v

/-- Embedding of DotMapDict.__setitem__ with a string key. -/
def DotMapDict_setitem (vt : VType) (es : List (String × Obj)) (k : String)
    (v : Obj) : Except String (List (String × Obj)) :=
  (coerceVT vt v).map (fun c => setKey es k c)

/-- Names defined on the DotMapDict class itself; assigning these as
attributes bypasses the mapping store (object.__setattr__), as do names
with a leading underscore. -/
def dotMapDictClassAttrs : List String := ["keys", "items", "values", "get"]

/-- Embedding of DotMapDict.__setattr__: internal or class attributes go to
the instance (leaving the mapping untouched), everything else is stored in
the mapping through the same coercion as subscript assignment. -/
def DotMapDict_setattr (vt : VType) (es : List (String × Obj)) (k : String)
    (v : Obj) : Except String (List (String × Obj)) :=
  if k.startsWith "_" || dotMapDictClassAttrs.contains k then Except.ok es
  else (coerceVT vt v).map (fun c => setKey es k c)

/-! ## The override merge (load._merge_mapping / _merge_into).

The function walks the incoming parsed mapping entry by entry and
dispatches on the runtime type of the target: DotMapDict, Pydantic model,
plain dict, or anything else (no-op).  Warnings are returned as the list
of dotted paths for which the same-value warning fired, in emission
order.  Termination is by the nesting weight of the incoming update. -/

mutual
/-- Table-nesting weight of a value (the recursion of the merge only ever
descends into tables). -/
def vWeight : Value → Nat
  | .vDict es => 1 + esWeight es
  | _ => 0

def esWeight : List (String × Value) → Nat
  | [] => 0
  | (_, v) :: rest => 1 + vWeight v + esWeight rest
end

theorem esWeight_append_name (dv : List (String × Value)) (k : String) :
    esWeight (dv ++ [("name", Value.vStr k)]) = esWeight dv + 1 := by
  induction dv with
  | nil => simp [esWeight, vWeight]
  | cons p rest ih =>
    obtain ⟨a, b⟩ := p
    simp [esWeight, ih]
    omega

/-- The name a DotMapDict-of-Variable merge injects before validating a
fresh table value lacking one (mirrors the Python dict splat, which
appends a missing key at the end). -/
def injectNameV (vt : VType) (dv : List (String × Value)) (k : String) :
    List (String × Value) :=
  if vt = VType.vtVariable && !containsKey dv "name" then
    dv ++ [("name", Value.vStr k)]
  else dv

theorem esWeight_injectNameV (vt : VType) (dv : List (String × Value)) (k : String) :
    esWeight (injectNameV vt dv k) ≤ esWeight dv + 1 := by
  unfold injectNameV
  split
  · rw [esWeight_append_name]
  · omega

theorem injectName_weight_lt (vt : VType) (dv : List (String × Value)) (k : String)
    (rest : List (String × Value)) :
    esWeight (injectNameV vt dv k) < esWeight ((k, Value.vDict dv) :: rest) := by
  have := esWeight_injectNameV vt dv k
  simp only [esWeight, vWeight]
  omega

/-- Targets the merge recurses into (isinstance(current,
(DotMapBaseModel, DotMapDict, dict))). -/
def isMergeable : Obj → Bool
  | .prim _ => false
  | _ => true

def joinDot (path : List String) : String := String.intercalate "." path

/-- Embedding of _merge_mapping (and _merge_into, whose non-dict case is
the no-op base case here).  The result is the merged target and the dotted
paths of the emitted same-value warnings.  A failed Variable coercion on
DotMapDict assignment propagates as an error, as the Pydantic
ValidationError does. -/
def mergeM : Obj → List (String × Value) → List String → Except String (Obj × List String)
  | t, [], _ => Except.ok (t, [])
  | .prim p, _ :: _, _ => Except.ok (.prim p, [])
  | .odmap vt es, (k, v) :: rest, path =>
    if _is_none_sentinel v then
      mergeM (.odmap vt (eraseKey es k)) rest path
    else
      match v with
      | .vDict dv =>
        let dv2 := injectNameV vt dv k
        match lookupKey es k with
        | some cur =>
          if isMergeable cur then do
            let r ← mergeM cur dv2 (path ++ [k])
            let r2 ← mergeM (.odmap vt (setKey es k r.1)) rest path
            Except.ok (r2.1, r.2 ++ r2.2)
          else do
            let w1 := if objEqValue cur (.vDict dv2) then [joinDot (path ++ [k])] else []
            let c ← coerceVT vt (Obj.ofValue (.vDict dv2))
            let r2 ← mergeM (.odmap vt (setKey es k c)) rest path
            Except.ok (r2.1, w1 ++ r2.2)
        | none => do
          let c ← coerceVT vt (Obj.ofValue (.vDict dv2))
          mergeM (.odmap vt (setKey es k c)) rest path
      | _ =>
        match lookupKey es k with
        | some cur => do
          let w1 := if objEqValue cur v then [joinDot (path ++ [k])] else []
          let c ← coerceVT vt (Obj.ofValue v)
          let r2 ← mergeM (.odmap vt (setKey es k c)) rest path
          Except.ok (r2.1, w1 ++ r2.2)
        | none => do
          let c ← coerceVT vt (Obj.ofValue v)
          mergeM (.odmap vt (setKey es k c)) rest path
  | .omodel mt fs, (k, v) :: rest, path =>
    if !(MType.modelFields mt).contains k then
      mergeM (.omodel mt fs) rest path
    else if _is_none_sentinel v then
      mergeM (.omodel mt (setKey fs k (.prim .vNone))) rest path
    else
      match v with
      | .vDict dv =>
        let cur := (lookupKey fs k).getD (.prim .vNone)
        if isMergeable cur then do
          let r ← mergeM cur dv (path ++ [k])
          let r2 ← mergeM (.omodel mt (setKey fs k r.1)) rest path
          Except.ok (r2.1, r.2 ++ r2.2)
        else do
          let w1 := if objEqValue cur (.vDict dv) then [joinDot (path ++ [k])] else []
          let r2 ← mergeM (.omodel mt (setKey fs k (Obj.ofValue (.vDict dv)))) rest path
          Except.ok (r2.1, w1 ++ r2.2)
      | _ => do
        let cur := (lookupKey fs k).getD (.prim .vNone)
        let w1 := if objEqValue cur v then [joinDot (path ++ [k])] else []
        let r2 ← mergeM (.omodel mt (setKey fs k (Obj.ofValue v))) rest path
        Except.ok (r2.1, w1 ++ r2.2)
  | .odict es, (k, v) :: rest, path =>
    if _is_none_sentinel v then
      mergeM (.odict (eraseKey es k)) rest path
    else
      match v with
      | .vDict dv =>
        let cur := (lookupKey es k).getD (.prim .vNone)
        if isMergeable cur then do
          let r ← mergeM cur dv (path ++ [k])
          let r2 ← mergeM (.odict (setKey es k r.1)) rest path
          Except.ok (r2.1, r.2 ++ r2.2)
        else do
          let w1 := if objEqValue cur (.vDict dv) then [joinDot (path ++ [k])] else []
          let r2 ← mergeM (.odict (setKey es k (Obj.ofValue (.vDict dv)))) rest path
          Except.ok (r2.1, w1 ++ r2.2)
      | _ => do
        let cur := (lookupKey es k).getD (.prim .vNone)
        let w1 := if objEqValue cur v then [joinDot (path ++ [k])] else []
        let r2 ← mergeM (.odict (setKey es k (Obj.ofValue v))) rest path
        Except.ok (r2.1, w1 ++ r2.2)
termination_by _t u _path => esWeight u
decreasing_by
  all_goals simp_wf
  all_goals try apply injectName_weight_lt
  all_goals simp only [esWeight, vWeight]
  all_goals omega

/-! ## File-level schemas and the collection loader (load.py,
variables.py).  A parsed TOML file is its name together with its top-level
table; a directory is the list of such files in the order the filesystem
enumeration (Path.glob) yields them, which is arbitrary. -/

abbrev TomlFile := String × List (String × Value)

/-- Embedding of VariablesFile: the validated sort list and the validated
variable mapping. -/
structure VariablesFileS where
  variables_sort_unit : Option (List String)
  variablesMap : List (String × Obj)
deriving Repr

/-- Key injection on one variables table: every table-valued definition
gets its declaration key spliced in as name (replacing an explicit name in
place, or appending one); other definitions pass through. -/
def injectEntryNames (vars : List (String × Value)) : List (String × Value) :=
  vars.map (fun kv =>
    match kv.2 with
    | .vDict es => (kv.1, Value.vDict (setKey es "name" (Value.vStr kv.1)))
    | other => (kv.1, other))

/-- Embedding of VariablesFile._inject_variable_names (the before
validator): applies only when the variables value is a parsed table. -/
def _inject_variable_names (data : List (String × Value)) : List (String × Value) :=
  match lookupKey data "variables" with
  | some (.vDict vs) => setKey data "variables" (Value.vDict (injectEntryNames vs))
  | _ => data

def asStrValue : Value → Option String
  | .vStr s => some s
  | _ => none

def parseSortUnit : Option Value → Except String (Option (List String))
  | none => Except.ok none
  | some .vNone => Except.ok none
  | some (.vList xs) =>
    match xs.mapM asStrValue with
    | some ss => Except.ok (some ss)
    | none => Except.error "variables_sort_unit: expected a list of strings"
  | some _ => Except.error "variables_sort_unit: expected a list of strings"

/-- Validate a variables table into the typed mapping: each definition is
validated as a Variable; the mapping is built key by key as a Python dict
comprehension would. -/
def validateVarEntries (vars : List (String × Value)) :
    Except String (List (String × Obj)) :=
  vars.foldlM
    (fun acc kv => do
      let var ← Variable.model_validate (Obj.ofValue kv.2)
      Except.ok (setKey acc kv.1 var))
    []

/-- Embedding of VariablesFile.model_validate on a parsed table: name
injection first, then field validation. -/
def VariablesFile.model_validate (data : List (String × Value)) :
    Except String VariablesFileS := do
  let data2 := _inject_variable_names data
  let su ← parseSortUnit (lookupKey data2 "variables_sort_unit")
  match lookupKey data2 "variables" with
  | some (.vDict vs) => do
    let ves ← validateVarEntries vs
    Except.ok (VariablesFileS.mk su ves)
  | _ => Except.error "variables: field required"

/-- One entry of a datasets table validated and stored under its key. -/
def dsEntryStep (acc : List (String × Obj)) (kv : String × Value) :
    Except String (List (String × Obj)) := do
  let d ← Dataset.model_validate (Obj.ofValue kv.2)
  Except.ok (setKey acc kv.1 d)

/-- Embedding of DatasetsFile.model_validate on a parsed table. -/
def DatasetsFile.model_validate (data : List (String × Value)) :
    Except String (List (String × Obj)) :=
  match lookupKey data "datasets" with
  | some (.vDict ds) => ds.foldlM dsEntryStep []
  | _ => Except.error "datasets: field required"

/-- Name prefix test (pattern matching of the glob prefix). -/
def pyStartsWith (s pre : String) : Bool := pre.data.isPrefixOf s.data

/-- Name suffix test (pattern matching of the glob suffix). -/
def pyEndsWith (s suf : String) : Bool := suf.data.isSuffixOf s.data

/-- The files cfg_dir.glob("variables*.toml") yields, keeping the
enumeration order of the given directory listing. -/
def globVariables (files : List TomlFile) : List TomlFile :=
  files.filter (fun f => pyStartsWith f.1 "variables" && pyEndsWith f.1 ".toml")

/-- Embedding of load._iter_variable_paths. -/
def _iter_variable_paths (files : List TomlFile) : List TomlFile :=
  (globVariables files).filter (fun f => f.1 ≠ "variables_derived_label.toml")

/-- Embedding of the merge loop of load._load_variables: validate each
file in the order given, remember the file named variables_derived.toml,
insert every entry into the merged typed mapping (last writer wins), and
keep the last sort list seen. -/
def loadVariablesCore (files : List TomlFile) :
    Except String ((List (String × Obj)) × Option (List String) × Option VariablesFileS) :=
  (_iter_variable_paths files).foldlM
    (fun acc f => do
      let vf ← VariablesFile.model_validate f.2
      let derived := if f.1 = "variables_derived.toml" then some vf else acc.2.2
      let merged ← vf.variablesMap.foldlM
        (fun m kv => DotMapDict_setitem .vtVariable m kv.1 kv.2) acc.1
      let su := match vf.variables_sort_unit with
        | some s => some s
        | none => acc.2.1
      Except.ok (merged, su, derived))
    ([], none, none)

/-- Attribute access on a model instance. -/
def Obj.getField (o : Obj) (k : String) : Option Obj :=
  match o with
  | .omodel _ fs => lookupKey fs k
  | _ => none

/-- The keyword arguments of the Variable constructed for a derived
label entry (Variable(name=label_name, unit=variable.unit,
dtype=STRING, derived_from=[name])). -/
def labelInput (name : String) (var : Obj) : Obj :=
  .odict
    [("name", .prim (.vStr (name ++ "_label"))),
     ("unit", (var.getField "unit").getD (.prim .vNone)),
     ("dtype", .prim (.vStr "STRING")),
     ("derived_from", .prim (.vList [.vStr name]))]

/-- One step of the label expansion loop: a derived entry whose
klass_codelist is an integer above zero yields a label Variable stored
under its label name; any other entry is skipped. -/
def labelStep (acc : List (String × Obj)) (kv : String × Obj) :
    Except String (List (String × Obj)) :=
  match kv.2.getField "klass_codelist" with
  | some (.prim (.vInt n)) =>
    if n ≤ 0 then Except.ok acc
    else do
      let lv ← Variable.model_validate (labelInput kv.1 kv.2)
      DotMapDict_setitem .vtVariable acc (kv.1 ++ "_label") lv
  | _ => Except.ok acc

/-- Embedding of load._expand_derived_label_variables: one label variable
per derived entry whose klass_codelist is a positive integer, constructed
through the Variable validator. -/
def _expand_derived_label_variables (vf : VariablesFileS) :
    Except String (List (String × Obj)) :=
  vf.variablesMap.foldlM labelStep []

/-- The extra code-to-label pairs injected for KLASS codelist 91. -/
def codelistExtras91 : Obj :=
  .odict
    [("151", .prim (.vStr "DDR / Øst-Tyskland")),
     ("135", .prim (.vStr "SSSR / Sovjetunionen")),
     ("125", .prim (.vStr "Jugoslavia (til 2004) / Serbia og Montenegro (fra og med 2004)")),
     ("142", .prim (.vStr "Tsjekkoslovakia"))]

/-- The extra code-to-label pairs injected for KLASS codelist 131. -/
def codelistExtras131 : Obj :=
  .odict
    [("2580", .prim (.vStr "360s definerte Utland")),
     ("2111", .prim (.vStr "Longyearbyen arealplanområde"))]

def applyExtrasVar (o : Obj) : Obj :=
  match o with
  | .omodel t fs =>
    let fs1 :=
      match lookupKey fs "klass_codelist" with
      | some (.prim (.vInt n)) =>
        if n = 91 then setKey fs "codelist_extras" codelistExtras91 else fs
      | _ => fs
    let fs2 :=
      match lookupKey fs1 "klass_codelist" with
      | some (.prim (.vInt n)) =>
        if n = 131 then setKey fs1 "codelist_extras" codelistExtras131 else fs1
      | _ => fs1
    .omodel t fs2
  | other => other

/-- Embedding of load._expand_codelist_extras. -/
def _expand_codelist_extras (ves : List (String × Obj)) : List (String × Obj) :=
  ves.map (fun kv => (kv.1, applyExtrasVar kv.2))

/-- One step of the insertion loop after label expansion: a synthesized
entry is only set when its name is not already present. -/
def labelInsertStep (m : List (String × Obj)) (kv : String × Obj) :
    Except String (List (String × Obj)) :=
  if containsKey m kv.1 then Except.ok m
  else DotMapDict_setitem .vtVariable m kv.1 kv.2

/-- The insertion loop after label expansion. -/
def insertLabelVariables (labels merged : List (String × Obj)) :
    Except String (List (String × Obj)) :=
  labels.foldlM labelInsertStep merged

/-- Embedding of load._load_variables: merge loop, label pass, then the
codelist-extras pass. -/
def _load_variables (files : List TomlFile) : Except String VariablesFileS := do
  let core ← loadVariablesCore files
  let merged2 ←
    match core.2.2 with
    | some dvf => do
      let labels ← _expand_derived_label_variables dvf
      insertLabelVariables labels core.1
    | none => Except.ok core.1
  Except.ok (VariablesFileS.mk core.2.1 (_expand_codelist_extras merged2))

/-- The files cfg_dir.glob("datasets*.toml") yields, in enumeration
order. -/
def globDatasets (files : List TomlFile) : List TomlFile :=
  files.filter (fun f => pyStartsWith f.1 "datasets" && pyEndsWith f.1 ".toml")

/-- DotMapDict insertion of one validated dataset entry. -/
def dsInsertStep (m : List (String × Obj)) (kv : String × Obj) :
    Except String (List (String × Obj)) :=
  DotMapDict_setitem .vtDataset m kv.1 kv.2

/-- One file of the dataset merge loop: validate, then insert every entry
(last writer wins). -/
def dsFileStep (merged : List (String × Obj)) (f : TomlFile) :
    Except String (List (String × Obj)) := do
  let ds ← DatasetsFile.model_validate f.2
  ds.foldlM dsInsertStep merged

/-- Embedding of load._load_datasets. -/
def _load_datasets (files : List TomlFile) : Except String (List (String × Obj)) :=
  (globDatasets files).foldlM dsFileStep []

/-- The raw definition a file gives for dataset name k, if any. -/
def rawDatasetDef (f : TomlFile) (k : String) : Option Value :=
  match lookupKey f.2 "datasets" with
  | some (.vDict ds) => lookupKey ds k
  | _ => none

/-- Whether a file defines dataset name k at all. -/
def rawDatasetHas (f : TomlFile) (k : String) : Bool :=
  (rawDatasetDef f k).isSome

/-! ## merge_tomls (NudbConfig.merge_tomls): the override entry point
sorts the directory files by path and folds the merge over them. -/

/-- Lexicographic character order on names, as Path sorting compares
same-directory file names. -/
def charListLe : List Char → List Char → Bool
  | [], _ => true
  | _ :: _, [] => false
  | a :: as, b :: bs => if a < b then true else if b < a then false else charListLe as bs

/-- Lexical order on file names. -/
def nameLe (a b : String) : Bool := charListLe a.data b.data

def insertByName (f : TomlFile) : List TomlFile → List TomlFile
  | [] => [f]
  | g :: rest => if nameLe f.1 g.1 then f :: g :: rest else g :: insertByName f rest

/-- Lexical sort by file name, as sorted() over same-directory Paths
compares. -/
def sortByName (files : List TomlFile) : List TomlFile :=
  files.foldr insertByName []

/-- Embedding of NudbConfig.merge_tomls: files matching *.toml are taken
in sorted order and merged into the configuration object; the collected
same-value warnings are returned alongside. -/
def merge_tomls (cfg : Obj) (files : List TomlFile) :
    Except String (Obj × List String) :=
  (sortByName (files.filter (fun f => pyEndsWith f.1 ".toml"))).foldlM
    (fun acc f => do
      let r ← mergeM acc.1 f.2 []
      Except.ok (r.1, acc.2 ++ r.2))
    (cfg, [])

/-! ## DotMap subscript assignment on a Pydantic model (dotmap.py,
options.py).  Pydantic BaseModel.__setattr__ assigns a declared field and
raises ValueError (not AttributeError) for an undeclared one; the DotMap
fallback to the raw mapping store catches AttributeError only. -/

inductive SetattrError where
  | valueError (msg : String)
  | attributeError (msg : String)
deriving Repr, DecidableEq

/-- Embedding of Pydantic BaseModel.__setattr__ on these models (none of
which set validate_assignment or extra=allow). -/
def pydantic_setattr (mt : MType) (fs : List (String × Obj)) (k : String)
    (v : Obj) : Except SetattrError (List (String × Obj)) :=
  if (MType.modelFields mt).contains k then Except.ok (setKey fs k v)
  else Except.error (.valueError ("object has no field " ++ k))

/-- A model wrapped by DotMap, with the internal raw mapping the fallback
path would write to. -/
structure DotMapModelState where
  fields : List (String × Obj)
  rawData : List (String × Obj)
deriving Repr

/-- Embedding of DotMap.__setitem__ with a string key on a Pydantic model:
try setattr; only an AttributeError falls back to the raw mapping store;
any other exception (Pydantic raises ValueError) propagates. -/
def DotMap_setitem_model (mt : MType) (st : DotMapModelState) (k : String)
    (v : Obj) : Except SetattrError DotMapModelState :=
  match pydantic_setattr mt st.fields k v with
  | Except.ok fs2 => Except.ok ⟨fs2, st.rawData⟩
  | Except.error (.attributeError _) => Except.ok ⟨st.fields, setKey st.rawData k v⟩
  | Except.error e => Except.error e

/-! ## Insertion sequences into a typed DotMapDict (for the coercion
invariant). -/

inductive InsOp where
  | viaItem (k : String) (v : Obj)
  | viaAttr (k : String) (v : Obj)
deriving Repr

def applyInsOp (vt : VType) (es : List (String × Obj)) :
    InsOp → Except String (List (String × Obj))
  | .viaItem k v => DotMapDict_setitem vt es k v
  | .viaAttr k v => DotMapDict_setattr vt es k v

def applyInsOps (vt : VType) (es : List (String × Obj)) (ops : List InsOp) :
    Except String (List (String × Obj)) :=
  ops.foldlM (fun acc op => applyInsOp vt acc op) es


/-! ## Concrete example data used by claim witnesses -/

/-- The settings model of the override test. -/
def exSettingsFields : List (String × Obj) :=
  [("dapla_team", .prim (.vStr "dapla-felles")),
   ("short_name", .prim (.vStr "nudb")),
   ("utd_nacekoder", .prim (.vList []))]

/-- A validated derived variable with a positive klass codelist. -/
def exDerivedVar : Obj :=
  .omodel .mVariable (Variable.varFields (Obj.ofValueEntries
    [("name", .vStr "d1"), ("unit", .vStr "u1"), ("dtype", .vStr "STRING"),
     ("klass_codelist", .vInt 5), ("length", .vList [.vInt 1]),
     ("derived_from", .vList [.vStr "x"])]))

/-- A derived-variables file holding just that entry. -/
def exDvf : VariablesFileS := VariablesFileS.mk none [("d1", exDerivedVar)]

/-- Two variable files defining the same variable x with different units;
their names order b after a lexically. -/
def exFileA : TomlFile :=
  ("variables_a.toml",
   [("variables", .vDict [("x", .vDict
     [("unit", .vStr "ua"), ("dtype", .vStr "STRING")])])])

/-- The lexically later twin of exFileA. -/
def exFileB : TomlFile :=
  ("variables_b.toml",
   [("variables", .vDict [("x", .vDict
     [("unit", .vStr "ub"), ("dtype", .vStr "STRING")])])])

/-- The unit strings of a loaded variables file, for comparing loads. -/
def unitNamesOf (r : Except String VariablesFileS) : Except String (List String) :=
  r.map (fun vf => vf.variablesMap.map (fun kv =>
    match Obj.getField kv.2 "unit" with
    | some (.prim (.vStr s)) => s
    | _ => ""))

/-- A raw dataset definition. -/
def exDsEntryRaw : Value :=
  .vDict [("team", .vStr "360"), ("bucket", .vStr "b"), ("path_glob", .vStr "g")]

/-- The datasets table of the example file. -/
def exDsTable : List (String × Value) := [("t1", exDsEntryRaw)]

/-- A dataset file carrying that table. -/
def exDsFile : TomlFile := ("datasets.toml", [("datasets", .vDict exDsTable)])

/-! ## C5: redundant overrides.  A redundant override assigns each
configured key a value deep-equal to what is already stored; the merge
then leaves the state unchanged and only warns. -/

/-- A direct scalar override value (strings, integers, booleans; None is
the deletion sentinel, and tables and lists are not scalars). -/
def isScalarV : Value → Bool
  | .vStr _ => true
  | .vInt _ => true
  | .vBool _ => true
  | _ => false

/-- The warning paths a redundant override produces: some ws exactly when
every leaf of the override is a scalar deep-equal to the currently stored
value, every overridden key is configured, no value is a deletion
sentinel, and table values only override dict-like currents; ws lists the
dotted path of every scalar leaf of the name-injected update in emission
order.  The traversal mirrors mergeM step for step. -/
def redundantWarns : Obj → List (String × Value) → List String → Option (List String)
  | _, [], _ => some []
  | .prim _, _ :: _, _ => none
  | .odmap vt es, (k, v) :: rest, path =>
    if _is_none_sentinel v then none
    else
      match v with
      | .vDict dv =>
        match lookupKey es k with
        | some cur =>
          if isMergeable cur then do
            let w1 ← redundantWarns cur (injectNameV vt dv k) (path ++ [k])
            let w2 ← redundantWarns (.odmap vt es) rest path
            some (w1 ++ w2)
          else none
        | none => none
      | _ =>
        if isScalarV v then
          match lookupKey es k with
          | some cur =>
            if objEqValue cur v then
              match coerceVT vt (Obj.ofValue v) with
              | .ok _ =>
                (redundantWarns (.odmap vt es) rest path).map
                  (fun ws => joinDot (path ++ [k]) :: ws)
              | .error _ => none
            else none
          | none => none
        else none
  | .omodel mt fs, (k, v) :: rest, path =>
    if !(MType.modelFields mt).contains k then none
    else if _is_none_sentinel v then none
    else
      match v with
      | .vDict dv =>
        match lookupKey fs k with
        | some cur =>
          if isMergeable cur then do
            let w1 ← redundantWarns cur dv (path ++ [k])
            let w2 ← redundantWarns (.omodel mt fs) rest path
            some (w1 ++ w2)
          else none
        | none => none
      | _ =>
        if isScalarV v then
          match lookupKey fs k with
          | some cur =>
            if objEqValue cur v then
              (redundantWarns (.omodel mt fs) rest path).map
                (fun ws => joinDot (path ++ [k]) :: ws)
            else none
          | none => none
        else none
  | .odict es, (k, v) :: rest, path =>
    if _is_none_sentinel v then none
    else
      match v with
      | .vDict dv =>
        match lookupKey es k with
        | some cur =>
          if isMergeable cur then do
            let w1 ← redundantWarns cur dv (path ++ [k])
            let w2 ← redundantWarns (.odict es) rest path
            some (w1 ++ w2)
          else none
        | none => none
      | _ =>
        if isScalarV v then
          match lookupKey es k with
          | some cur =>
            if objEqValue cur v then
              (redundantWarns (.odict es) rest path).map
                (fun ws => joinDot (path ++ [k]) :: ws)
            else none
          | none => none
        else none
termination_by _t u _path => esWeight u
decreasing_by
  all_goals simp_wf
  all_goals try apply injectName_weight_lt
  all_goals simp only [esWeight, vWeight]
  all_goals omega

/-- A stored variable for the redundant-override example: name x,
unit ua. -/
def exC5Var : Obj :=
  .omodel .mVariable [("name", .prim (.vStr "x")), ("unit", .prim (.vStr "ua"))]

/-- A variable collection holding that variable under its name. -/
def exC5Target : Obj := .odmap .vtVariable [("x", exC5Var)]

/-- A redundant single-variable override: x keeps its current unit, and
the table carries no name key. -/
def exC5Update : List (String × Value) := [("x", .vDict [("unit", .vStr "ua")])]

/-! ## Proofs about cycle detection -/

theorem lookupDeps_mem {g : DerivedGraph} {v : String} {deps : List String}
    (h : lookupDeps g v = some deps) : v ∈ g.map Prod.fst := by
  induction g with
  | nil => simp [lookupDeps] at h
  | cons p rest ih =>
    obtain ⟨k, ds⟩ := p
    by_cases hk : k = v
    · subst hk; simp
    · simp only [lookupDeps, if_neg hk] at h
      simpa using Or.inr (ih h)

theorem length_filter_le_of_imp {α : Type} {p q : α → Bool}
    (himp : ∀ a, p a = true → q a = true) :
    ∀ m : List α, (m.filter p).length ≤ (m.filter q).length := by
  intro m
  induction m with
  | nil => simp
  | cons b bs ih =>
    by_cases hb : p b = true
    · simp only [List.filter_cons_of_pos hb, List.filter_cons_of_pos (himp b hb),
        List.length_cons]
      omega
    · have hb' : ¬ p b = true := hb
      by_cases hqb : q b = true
      · simp only [List.filter_cons_of_neg hb', List.filter_cons_of_pos hqb,
          List.length_cons]
        omega
      · simpa [List.filter_cons_of_neg hb', List.filter_cons_of_neg hqb] using ih

theorem length_filter_lt_of_witness {α : Type} {l : List α} {p q : α → Bool}
    (himp : ∀ a, p a = true → q a = true) {a : α} (ha : a ∈ l)
    (hqa : q a = true) (hpa : p a = false) :
    (l.filter p).length < (l.filter q).length := by
  induction l with
  | nil => simp at ha
  | cons b bs ih =>
    rcases List.mem_cons.mp ha with heq | hmem
    · subst heq
      have hpa' : ¬ p a = true := by simp [hpa]
      simp only [List.filter_cons_of_neg hpa', List.filter_cons_of_pos hqa,
        List.length_cons]
      have := length_filter_le_of_imp himp bs
      omega
    · by_cases hb : p b = true
      · simp only [List.filter_cons_of_pos hb, List.filter_cons_of_pos (himp b hb),
          List.length_cons]
        have := ih hmem; omega
      · have hb' : ¬ p b = true := hb
        by_cases hqb : q b = true
        · simp only [List.filter_cons_of_neg hb', List.filter_cons_of_pos hqb,
            List.length_cons]
          have := ih hmem; omega
        · simpa [List.filter_cons_of_neg hb', List.filter_cons_of_neg hqb] using ih hmem

theorem remKeys_cons_lt {g : DerivedGraph} {visited : List String} {v : String}
    (hv : v ∈ g.map Prod.fst) (hnv : v ∉ visited) :
    remKeys g (v :: visited) < remKeys g visited := by
  refine @length_filter_lt_of_witness String (List.map Prod.fst g).dedup
    (fun k => !(v :: visited).contains k) (fun k => !visited.contains k) ?_ v ?_ ?_ ?_
  · intro a hpa
    have h1 : a ∉ v :: visited := by simpa using hpa
    simpa using fun hmem => h1 (List.mem_cons_of_mem _ hmem)
  · exact List.mem_dedup.mpr hv
  · simpa using hnv
  · simp

theorem remKeys_le (g : DerivedGraph) (visited : List String) :
    remKeys g visited ≤ g.length := by
  calc ((g.map Prod.fst).dedup.filter _).length
      ≤ (g.map Prod.fst).dedup.length := List.length_filter_le _ _
    _ ≤ (g.map Prod.fst).length := (List.dedup_sublist _).length_le
    _ = g.length := List.length_map _ _

theorem any_congr_mem {α : Type} {l : List α} {f h : α → Bool}
    (hfg : ∀ a ∈ l, f a = h a) : l.any f = l.any h := by
  induction l with
  | nil => rfl
  | cons b bs ih =>
    simp only [List.any_cons]
    rw [hfg b (List.mem_cons_self _ _), ih fun a ha => hfg a (List.mem_cons_of_mem _ ha)]

theorem dfs_stable (g : DerivedGraph) :
    ∀ f1 : Nat, ∀ f2 visited v, remKeys g visited < f1 → remKeys g visited < f2 →
    variable_is_cyclic_depth_first_search g f1 visited v =
      variable_is_cyclic_depth_first_search g f2 visited v := by
  intro f1
  induction f1 with
  | zero => intro f2 visited v h1; omega
  | succ n ih =>
    intro f2 visited v h1 h2
    match f2, h2 with
    | m + 1, h2 =>
    by_cases hm : v ∈ visited
    · simp [variable_is_cyclic_depth_first_search, hm]
    · cases hlk : lookupDeps g v with
      | none => simp [variable_is_cyclic_depth_first_search, hm, hlk]
      | some deps =>
        simp only [variable_is_cyclic_depth_first_search, hlk]
        have hc : (visited.contains v) = false := by simpa using hm
        rw [hc]
        simp only [Bool.false_eq_true, if_false]
        apply any_congr_mem
        intro w _
        have hvk : v ∈ g.map Prod.fst := lookupDeps_mem hlk
        have hlt := remKeys_cons_lt hvk hm
        exact ih m (v :: visited) w (by omega) (by omega)


theorem dfs_sound (g : DerivedGraph) :
    ∀ fuel : Nat, ∀ visited v,
    List.Chain' (fun a b => GEdge g b a) (v :: visited) →
    variable_is_cyclic_depth_first_search g fuel visited v = true → HasCycle g := by
  intro fuel
  induction fuel with
  | zero => intro visited v _ h; simp [variable_is_cyclic_depth_first_search] at h
  | succ n ih =>
    intro visited v hchain h
    by_cases hm : v ∈ visited
    · obtain ⟨p, s, rfl⟩ := List.append_of_mem hm
      have hpre : (v :: p ++ [v]) <+: (v :: (p ++ v :: s)) := by
        refine ⟨s, ?_⟩
        simp
      have hchain2 : List.Chain' (fun a b => GEdge g b a) (v :: p ++ [v]) :=
        hchain.prefix hpre
      have hrev : List.Chain' (GEdge g) ((v :: p ++ [v]).reverse) := by
        rw [List.chain'_reverse]
        exact hchain2
      have hrw : (v :: p ++ [v]).reverse = v :: (p.reverse ++ [v]) := by
        simp
      rw [hrw] at hrev
      have hch : List.Chain (GEdge g) v (p.reverse ++ [v]) := hrev
      exact ⟨v, p.reverse ++ [v], hch, List.getLast?_concat _⟩
    · cases hlk : lookupDeps g v with
      | none => simp [variable_is_cyclic_depth_first_search, hm, hlk] at h
      | some deps =>
        have hc : (visited.contains v) = false := by simpa using hm
        simp only [variable_is_cyclic_depth_first_search, hc, Bool.false_eq_true,
          if_false, hlk, List.any_eq_true] at h
        obtain ⟨w, hw, hrec⟩ := h
        have hchain2 : List.Chain' (fun a b => GEdge g b a) (w :: v :: visited) := by
          have : List.Chain (fun a b => GEdge g b a) w (v :: visited) :=
            List.chain_cons.mpr ⟨⟨deps, hlk, hw⟩, hchain⟩
          exact this
        exact ih (v :: visited) w hchain2 hrec

theorem dfs_false_not_mem {g : DerivedGraph} {f : Nat} {visited : List String}
    {v : String}
    (h : variable_is_cyclic_depth_first_search g (f + 1) visited v = false) :
    v ∉ visited := by
  intro hm
  simp [variable_is_cyclic_depth_first_search, hm] at h

theorem dfs_step_false {g : DerivedGraph} {visited : List String} {v w : String}
    {deps : List String}
    (h : variable_is_cyclic_depth_first_search g (dfsFuel g) visited v = false)
    (hlk : lookupDeps g v = some deps) (hw : w ∈ deps) :
    variable_is_cyclic_depth_first_search g (dfsFuel g) (v :: visited) w = false := by
  have hm : v ∉ visited := dfs_false_not_mem h
  have hc : (visited.contains v) = false := by simpa using hm
  simp only [dfsFuel, variable_is_cyclic_depth_first_search, hc, Bool.false_eq_true,
    if_false, hlk] at h
  have h2 : ∀ x ∈ deps,
      variable_is_cyclic_depth_first_search g g.length (v :: visited) x = false := by
    simpa using h
  have hfalse := h2 w hw
  have hvk : v ∈ g.map Prod.fst := lookupDeps_mem hlk
  have hlt := remKeys_cons_lt hvk hm
  have hle := remKeys_le g visited
  have hlen : 1 ≤ g.length := by
    cases g with
    | nil => simp at hvk
    | cons a l => simp
  rw [dfsFuel, ← dfs_stable g g.length (g.length + 1) (v :: visited) w (by omega) (by omega)]
  exact hfalse

theorem dfs_walk_false {g : DerivedGraph} :
    ∀ l : List String, ∀ v u : String, ∀ acc : List String,
    List.Chain (GEdge g) v l → l.getLast? = some u →
    variable_is_cyclic_depth_first_search g (dfsFuel g) acc v = false →
    ∃ acc2, variable_is_cyclic_depth_first_search g (dfsFuel g) acc2 u = false ∧
      v ∈ acc2 ∧ acc ⊆ acc2 := by
  intro l
  induction l with
  | nil => intro v u acc _ hlast; simp at hlast
  | cons w rest ih =>
    intro v u acc hchain hlast hfalse
    obtain ⟨hedge, hchainrest⟩ := List.chain_cons.mp hchain
    obtain ⟨deps, hlk, hw⟩ := hedge
    have hstep := dfs_step_false hfalse hlk hw
    cases rest with
    | nil =>
      have hu : w = u := by simpa using hlast
      subst hu
      exact ⟨v :: acc, hstep, List.mem_cons_self _ _,
        List.subset_cons_of_subset _ fun x hx => hx⟩
    | cons r rs =>
      have hlast2 : (r :: rs).getLast? = some u := by
        simpa [List.getLast?_cons_cons] using hlast
      obtain ⟨acc2, hfin, hwmem, hsub⟩ := ih w u (v :: acc) hchainrest hlast2 hstep
      exact ⟨acc2, hfin, hsub (List.mem_cons_self _ _),
        fun x hx => hsub (List.mem_cons_of_mem _ hx)⟩

theorem dfs_complete {g : DerivedGraph} (h : HasCycle g) :
    is_cyclic_depth_first_search g = true := by
  obtain ⟨v, l, hchain, hlast⟩ := h
  by_contra hfalse
  have hall : ∀ k ∈ g.map Prod.fst,
      variable_is_cyclic_depth_first_search g (dfsFuel g) [] k = false := by
    intro k hk
    cases hv : variable_is_cyclic_depth_first_search g (dfsFuel g) [] k
    · rfl
    · exfalso
      apply hfalse
      simp only [is_cyclic_depth_first_search, List.any_eq_true]
      exact ⟨k, hk, hv⟩
  have hlnil : l ≠ [] := by
    intro hnil; subst hnil; simp at hlast
  obtain ⟨w, rest, rfl⟩ := List.exists_cons_of_ne_nil hlnil
  obtain ⟨hedge, _⟩ := List.chain_cons.mp hchain
  obtain ⟨deps, hlk, _⟩ := hedge
  have hvk : v ∈ g.map Prod.fst := lookupDeps_mem hlk
  have hstart := hall v hvk
  obtain ⟨acc2, hfin, hvmem, _⟩ := dfs_walk_false (w :: rest) v v [] hchain hlast hstart
  have := dfs_false_not_mem
    (show variable_is_cyclic_depth_first_search g (g.length + 1) acc2 v = false by
      simpa [dfsFuel] using hfin)
  exact this hvmem

theorem is_cyclic_iff (g : DerivedGraph) :
    is_cyclic_depth_first_search g = true ↔ HasCycle g := by
  constructor
  · intro h
    simp only [is_cyclic_depth_first_search, List.any_eq_true] at h
    obtain ⟨k, _, hrec⟩ := h
    have htriv : List.Chain' (fun a b => GEdge g b a) [k] := List.chain'_singleton _
    exact dfs_sound g (dfsFuel g) [] k htriv hrec
  · exact dfs_complete


theorem anyE_rel {f : String → Except String Bool} {b : String → Bool}
    (deps : List String)
    (hrel : ∀ w ∈ deps, (b w = false → f w = Except.ok false) ∧
      (b w = true → ∃ u, f w = Except.error u)) :
    (deps.any b = false → anyE f deps = Except.ok false) ∧
    (deps.any b = true → ∃ u, anyE f deps = Except.error u) := by
  induction deps with
  | nil => simp [anyE]
  | cons x xs ih =>
    have hx := hrel x (List.mem_cons_self _ _)
    have ihx := ih fun w hw => hrel w (List.mem_cons_of_mem _ hw)
    constructor
    · intro hfalse
      simp only [List.any_cons, Bool.or_eq_false_iff] at hfalse
      simp only [anyE, hx.1 hfalse.1]
      exact ihx.1 hfalse.2
    · intro htrue
      simp only [List.any_cons, Bool.or_eq_true] at htrue
      cases hbx : b x with
      | true =>
        obtain ⟨u, hu⟩ := hx.2 hbx
        exact ⟨u, by simp only [anyE, hu]⟩
      | false =>
        have hxs : xs.any b = true := by
          rcases htrue with h | h
          · rw [hbx] at h; exact absurd h (by simp)
          · exact h
        obtain ⟨u, hu⟩ := ihx.2 hxs
        exact ⟨u, by simp only [anyE, hx.1 hbx, hu]⟩

theorem dfs_fail_rel (g : DerivedGraph) :
    ∀ fuel : Nat, ∀ visited v,
    (variable_is_cyclic_depth_first_search g fuel visited v = false →
      variable_is_cyclic_dfs_fail g fuel visited v = Except.ok false) ∧
    (variable_is_cyclic_depth_first_search g fuel visited v = true →
      ∃ u, variable_is_cyclic_dfs_fail g fuel visited v = Except.error u) := by
  intro fuel
  induction fuel with
  | zero =>
    intro visited v
    simp [variable_is_cyclic_depth_first_search, variable_is_cyclic_dfs_fail]
  | succ n ih =>
    intro visited v
    by_cases hm : v ∈ visited
    · constructor
      · intro h; simp [variable_is_cyclic_depth_first_search, hm] at h
      · intro _
        exact ⟨v, by simp [variable_is_cyclic_dfs_fail, hm]⟩
    · have hc : (visited.contains v) = false := by simpa using hm
      cases hlk : lookupDeps g v with
      | none =>
        constructor
        · intro _
          simp [variable_is_cyclic_dfs_fail, hm, hlk]
        · intro h
          simp [variable_is_cyclic_depth_first_search, hm, hlk] at h
      | some deps =>
        have hrel := anyE_rel deps (fun w _ => ih (v :: visited) w)
        constructor
        · intro h
          simp only [variable_is_cyclic_depth_first_search, hc, Bool.false_eq_true,
            if_false, hlk] at h
          simp only [variable_is_cyclic_dfs_fail, hc, Bool.false_eq_true, if_false, hlk]
          exact hrel.1 h
        · intro h
          simp only [variable_is_cyclic_depth_first_search, hc, Bool.false_eq_true,
            if_false, hlk] at h
          simp only [variable_is_cyclic_dfs_fail, hc, Bool.false_eq_true, if_false, hlk]
          exact hrel.2 h

theorem is_cyclic_fail_iff (g : DerivedGraph) :
    (∃ u, is_cyclic_dfs_fail g = Except.error u) ↔
      is_cyclic_depth_first_search g = true := by
  have hrel := anyE_rel (g.map Prod.fst) (fun w _ => dfs_fail_rel g (dfsFuel g) [] w)
  constructor
  · intro ⟨u, herr⟩
    cases hb : is_cyclic_depth_first_search g with
    | true => rfl
    | false =>
      have := hrel.1 (by simpa [is_cyclic_depth_first_search] using hb)
      rw [is_cyclic_dfs_fail] at herr
      rw [this] at herr
      exact absurd herr (by simp)
  · intro htrue
    have := hrel.2 (by simpa [is_cyclic_depth_first_search] using htrue)
    simpa [is_cyclic_dfs_fail] using this


/-- C1: is_cyclic_depth_first_search(graph) returns true iff the graph has a
directed cycle reachable from some node; the spec example graphs evaluate as
stated; and with fail_on_cyclic=True the check raises (returns an error) iff
the boolean check would return true, the error naming the first variable
found depending on itself (here: a). -/
theorem C1_cycle_detection :
    (∀ g : DerivedGraph, is_cyclic_depth_first_search g = true ↔ HasCycle g)
    ∧ is_cyclic_depth_first_search exCyclicGraph = true
    ∧ is_cyclic_depth_first_search exAcyclicGraph = false
    ∧ (∀ g : DerivedGraph,
        (∃ u, is_cyclic_dfs_fail g = Except.error u) ↔
          is_cyclic_depth_first_search g = true)
    ∧ is_cyclic_dfs_fail exCyclicGraph = Except.error "a" :=
  ⟨is_cyclic_iff, by decide, by decide, is_cyclic_fail_iff, by rfl⟩

/-! ## Association-list lemmas -/

theorem lookup_eraseKey_self {α : Type} (es : List (String × α)) (k : String) :
    lookupKey (eraseKey es k) k = none := by
  induction es with
  | nil => rfl
  | cons p rest ih =>
    obtain ⟨a, b⟩ := p
    by_cases ha : a = k
    · simpa [eraseKey, ha] using ih
    · simpa [eraseKey, lookupKey, ha] using ih

theorem eraseKey_not_contains {α : Type} {es : List (String × α)} {k : String}
    (h : containsKey es k = false) : eraseKey es k = es := by
  induction es with
  | nil => rfl
  | cons p rest ih =>
    obtain ⟨a, b⟩ := p
    by_cases ha : a = k
    · simp [containsKey, lookupKey, ha] at h
    · simp only [containsKey, lookupKey, if_neg ha] at h
      simp [eraseKey, ha] at ih ⊢
      exact ih h

theorem lookup_setKey_self {α : Type} (es : List (String × α)) (k : String) (v : α) :
    lookupKey (setKey es k v) k = some v := by
  induction es with
  | nil => simp [setKey, lookupKey]
  | cons p rest ih =>
    obtain ⟨a, b⟩ := p
    by_cases ha : a = k
    · simp [setKey, ha, lookupKey]
    · simpa [setKey, ha, lookupKey] using ih

theorem lookup_setKey_ne {α : Type} (es : List (String × α)) (k k2 : String) (v : α)
    (h : k2 ≠ k) : lookupKey (setKey es k v) k2 = lookupKey es k2 := by
  induction es with
  | nil =>
    simp only [setKey, lookupKey]
    rw [if_neg (Ne.symm h)]
  | cons p rest ih =>
    obtain ⟨a, b⟩ := p
    by_cases ha : a = k
    · subst ha
      simp only [setKey, if_pos rfl, lookupKey]
      rw [if_neg (Ne.symm h), if_neg (Ne.symm h)]
    · simp only [setKey, if_neg ha, lookupKey]
      by_cases hak : a = k2
      · simp [hak]
      · simp [hak, ih]

theorem mem_setKey {α : Type} {es : List (String × α)} {k : String} {v : α}
    {p : String × α} (h : p ∈ setKey es k v) : p ∈ es ∨ p = (k, v) := by
  induction es with
  | nil => simpa [setKey] using h
  | cons q rest ih =>
    obtain ⟨a, b⟩ := q
    by_cases ha : a = k
    · simp only [setKey, if_pos ha] at h
      rcases List.mem_cons.mp h with heq | hmem
      · right; rw [heq, ha]
      · left; exact List.mem_cons_of_mem _ hmem
    · simp only [setKey, if_neg ha] at h
      rcases List.mem_cons.mp h with heq | hmem
      · left; rw [heq]; exact List.mem_cons_self _ _
      · rcases ih hmem with h1 | h2
        · left; exact List.mem_cons_of_mem _ h1
        · right; exact h2

theorem contains_setKey_self {α : Type} (es : List (String × α)) (k : String) (v : α) :
    containsKey (setKey es k v) k = true := by
  simp [containsKey, lookup_setKey_self]

/-! ## C3: deletion sentinel -/

/-- C3: a sentinel value (None, or a string trimming and lowering to
none) removes the key from a DotMapDict or plain-dict target (a
subsequent lookup reports it absent), resets a known typed-record field
to None, and is a no-op for a key not present in the target; no warning
is emitted and nothing else changes. -/
theorem C3_deletion_sentinel :
    (∀ v, _is_none_sentinel v = true ↔
      (v = Value.vNone ∨ ∃ s, v = Value.vStr s ∧ pyLower (pyStrip s) = "none"))
    ∧ (∀ vt es k v path, _is_none_sentinel v = true →
        mergeM (.odmap vt es) [(k, v)] path =
          Except.ok (.odmap vt (eraseKey es k), [])
        ∧ lookupKey (eraseKey es k) k = none)
    ∧ (∀ es k v path, _is_none_sentinel v = true →
        mergeM (.odict es) [(k, v)] path =
          Except.ok (.odict (eraseKey es k), [])
        ∧ lookupKey (eraseKey es k) k = none)
    ∧ (∀ mt fs k v path, _is_none_sentinel v = true →
        k ∈ MType.modelFields mt →
        mergeM (.omodel mt fs) [(k, v)] path =
          Except.ok (.omodel mt (setKey fs k (.prim .vNone)), [])
        ∧ lookupKey (setKey fs k (.prim .vNone)) k = some (.prim .vNone))
    ∧ (∀ vt es k v path, _is_none_sentinel v = true → containsKey es k = false →
        mergeM (.odmap vt es) [(k, v)] path = Except.ok (.odmap vt es, [])) := by
  refine ⟨?_, ?_, ?_, ?_, ?_⟩
  · intro v
    cases v <;> simp [_is_none_sentinel]
  · intro vt es k v path h
    refine ⟨?_, lookup_eraseKey_self es k⟩
    cases v <;> simp_all [mergeM, _is_none_sentinel]
  · intro es k v path h
    refine ⟨?_, lookup_eraseKey_self es k⟩
    cases v <;> simp_all [mergeM, _is_none_sentinel]
  · intro mt fs k v path h hk
    refine ⟨?_, lookup_setKey_self fs k _⟩
    cases v <;> simp_all [mergeM, _is_none_sentinel]
  · intro vt es k v path h hns
    have he := eraseKey_not_contains hns
    cases v <;> simp_all [mergeM, _is_none_sentinel, he]

/-- C3 witness: deleting the key x from a one-entry DotMapDict through a
sentinel string override leaves an empty mapping in which x is absent. -/
theorem C3_deletion_sentinel_witness :
    mergeM (.odmap .vtNone [("x", .prim (.vStr "a"))]) [("x", .vStr " None ")] [] =
      Except.ok (.odmap .vtNone (eraseKey [("x", Obj.prim (.vStr "a"))] "x"), [])
    ∧ lookupKey (eraseKey [("x", Obj.prim (.vStr "a"))] "x") "x" = none :=
  C3_deletion_sentinel.2.1 .vtNone [("x", .prim (.vStr "a"))] "x" (.vStr " None ") []
    (by decide)

/-! ## C4: unknown override keys -/

/-- C4: the spec and test suite require one warning naming the dotted
path of every unknown override key before it is dropped; the merge code
instead skips an unknown key silently.  An unknown key leaves the model
target and the warning list exactly as the remaining keys produce them,
and the settings override from the test suite returns an empty warning
list. -/
theorem C4_unknown_key_dropped_without_warning :
    (∀ mt fs k v path rest, k ∉ MType.modelFields mt →
      mergeM (.omodel mt fs) ((k, v) :: rest) path =
        mergeM (.omodel mt fs) rest path)
    ∧ mergeM (.omodel .mSettingsFile exSettingsFields)
        [("unknown_key", .vStr "not-allowed")] [] =
      Except.ok (.omodel .mSettingsFile exSettingsFields, []) := by
  constructor
  · intro mt fs k v path rest h
    cases v <;> simp [mergeM, h]
  · simp [mergeM, MType.modelFields]

/-! ## Small Except computation lemmas -/

theorem except_map_ok {α β γ : Type} (f : β → γ) (x : β) :
    Except.map f (Except.ok x : Except α β) = Except.ok (f x) := rfl

theorem except_map_error {α β γ : Type} (f : β → γ) (e : α) :
    Except.map f (Except.error e : Except α β) = Except.error e := rfl

theorem except_bind_ok {α β γ : Type} (x : β) (f : β → Except α γ) :
    (Except.ok x >>= f) = f x := rfl

theorem except_bind_error {α β γ : Type} (e : α) (f : β → Except α γ) :
    ((Except.error e : Except α β) >>= f) = Except.error e := rfl

theorem except_pure {α β : Type} (x : β) :
    (pure x : Except α β) = Except.ok x := rfl

/-! ## C8: assigning an undeclared Options flag -/

/-- C8: subscript assignment of an undeclared flag on the options record
raises: Pydantic rejects an unknown field with a ValueError, which is not
the AttributeError the DotMap fallback catches, so no raw-mapping
fallback happens and the object is left unchanged; in particular
options[non_existant_field] fails on an OptionEntry. -/
theorem C8_options_unknown_flag_raises :
    (∀ mt st k v, k ∉ MType.modelFields mt →
      DotMap_setitem_model mt st k v =
        Except.error (.valueError ("object has no field " ++ k)))
    ∧ (∀ mt fs k v msg,
        pydantic_setattr mt fs k v ≠ Except.error (.attributeError msg))
    ∧ DotMap_setitem_model .mOptionEntry
        ⟨[("warn_unsafe_derive", .prim (.vBool true))], []⟩
        "non_existant_field" (.prim (.vBool false)) =
      Except.error (.valueError "object has no field non_existant_field") := by
  refine ⟨?_, ?_, ?_⟩
  · intro mt st k v h
    simp [DotMap_setitem_model, pydantic_setattr, h]
  · intro mt fs k v msg
    by_cases h : k ∈ MType.modelFields mt
    · simp [pydantic_setattr, h]
    · simp [pydantic_setattr, h]
  · rfl

/-- C8 witness: the general unknown-flag conjunct applied to the concrete
OptionEntry state of the test suite. -/
theorem C8_options_unknown_flag_witness :
    DotMap_setitem_model .mOptionEntry
        ⟨[("warn_unsafe_derive", .prim (.vBool false))], []⟩
        "nonsense" (.prim (.vBool true)) =
      Except.error (.valueError ("object has no field " ++ "nonsense")) :=
  C8_options_unknown_flag_raises.1 .mOptionEntry
    ⟨[("warn_unsafe_derive", .prim (.vBool false))], []⟩
    "nonsense" (.prim (.vBool true)) (by decide)

/-! ## C10: DotMapDict value coercion -/

theorem variable_mv_shape {v : Obj} {c : Obj}
    (h : Variable.model_validate v = Except.ok c) :
    ∃ fs, c = Obj.omodel .mVariable fs := by
  match v, h with
  | .omodel .mVariable fs, h =>
    simp only [Variable.model_validate] at h
    cases h
    exact ⟨fs, rfl⟩
  | .odict es, h =>
    simp only [Variable.model_validate] at h
    cases hc : Variable.fieldChecks es with
    | error e =>
      rw [hc] at h
      simp [except_map_error] at h
    | ok u =>
      rw [hc] at h
      simp only [except_map_ok] at h
      cases h
      exact ⟨Variable.varFields es, rfl⟩

theorem coerce_variable_instance {v c : Obj}
    (h : coerceVT .vtVariable v = Except.ok c) :
    VType.isInstance .vtVariable c = true := by
  by_cases hi : VType.isInstance .vtVariable v = true
  · simp only [coerceVT, hi, if_true] at h
    cases h
    exact hi
  · simp only [coerceVT, hi] at h
    simp only [Bool.false_eq_true, if_false] at h
    obtain ⟨fs, rfl⟩ := variable_mv_shape h
    rfl

/-- C10 counterexample: a DotMapDict declared with value type str (as the
dataset min_values and rename collections are) accepts an integer through
subscript assignment and stores it unchanged, so the stored value is not
an instance of the declared value type. -/
theorem C10_primitive_type_not_coerced :
    DotMapDict_setitem .vtStr [] "k" (.prim (.vInt 1)) =
      Except.ok [("k", Obj.prim (.vInt 1))]
    ∧ VType.isInstance .vtStr (.prim (.vInt 1)) = false :=
  ⟨rfl, rfl⟩

/-- C10 amended: when the declared value type carries a model validator
(Variable), every successful insertion through subscript or attribute
assignment stores an instance, so any insertion sequence from an
all-instance state keeps every stored value an instance of Variable; a
validator-less value type (str) stores a non-instance value unchanged. -/
theorem C10_typed_collection_invariant :
    (∀ ops es0 es1, (∀ p ∈ es0, VType.isInstance .vtVariable p.2 = true) →
      applyInsOps .vtVariable es0 ops = Except.ok es1 →
      ∀ p ∈ es1, VType.isInstance .vtVariable p.2 = true)
    ∧ (∀ es k v, VType.isInstance .vtStr v = false →
        DotMapDict_setitem .vtStr es k v = Except.ok (setKey es k v)) := by
  constructor
  · intro ops
    induction ops with
    | nil =>
      intro es0 es1 h0 hfold
      simp only [applyInsOps, List.foldlM_nil, except_pure] at hfold
      cases hfold
      exact h0
    | cons op rest ih =>
      intro es0 es1 h0 hfold
      simp only [applyInsOps, List.foldlM_cons] at hfold
      cases hop : applyInsOp .vtVariable es0 op with
      | error e =>
        rw [hop] at hfold
        simp [except_bind_error] at hfold
      | ok es2 =>
        rw [hop] at hfold
        simp only [except_bind_ok] at hfold
        refine ih es2 es1 ?_ hfold
        intro p hp
        cases op with
        | viaItem k v =>
          simp only [applyInsOp, DotMapDict_setitem] at hop
          cases hc : coerceVT .vtVariable v with
          | error e =>
            rw [hc] at hop
            simp [except_map_error] at hop
          | ok c =>
            rw [hc] at hop
            simp only [except_map_ok] at hop
            cases hop
            rcases mem_setKey hp with hmem | heq
            · exact h0 p hmem
            · rw [heq]
              exact coerce_variable_instance hc
        | viaAttr k v =>
          simp only [applyInsOp, DotMapDict_setattr] at hop
          by_cases hg : (k.startsWith "_" || dotMapDictClassAttrs.contains k) = true
          · rw [if_pos hg] at hop
            cases hop
            exact h0 p hp
          · rw [if_neg hg] at hop
            cases hc : coerceVT .vtVariable v with
            | error e =>
              rw [hc] at hop
              simp [except_map_error] at hop
            | ok c =>
              rw [hc] at hop
              simp only [except_map_ok] at hop
              cases hop
              rcases mem_setKey hp with hmem | heq
              · exact h0 p hmem
              · rw [heq]
                exact coerce_variable_instance hc
  · intro es k v h
    simp [DotMapDict_setitem, coerceVT, h, except_map_ok]

/-- C10 witness: inserting a parsed variable table by subscript and
another by attribute into an empty Variable-typed DotMapDict succeeds,
and both stored values are Variable instances. -/
theorem C10_typed_collection_invariant_witness :
    ∀ p ∈
      [("a", Obj.omodel .mVariable (Variable.varFields (Obj.ofValueEntries
          [("name", .vStr "a"), ("unit", .vStr "u"), ("dtype", .vStr "STRING")])))],
      VType.isInstance .vtVariable p.2 = true := by
  have h := C10_typed_collection_invariant.1
    [InsOp.viaItem "a" (.odict (Obj.ofValueEntries
      [("name", .vStr "a"), ("unit", .vStr "u"), ("dtype", .vStr "STRING")]))]
    [] _ (by intro p hp; simp at hp) (by rfl)
  exact h

/-! ## C7: utdatert variables require an outdated_comment -/

theorem lookup_map_keys {α : Type} (names : List String) (g : String → α) (k : String) :
    lookupKey (names.map (fun f => (f, g f))) k =
      if k ∈ names then some (g k) else none := by
  induction names with
  | nil => simp [lookupKey]
  | cons n rest ih =>
    by_cases hn : n = k
    · subst hn
      simp [lookupKey]
    · simp only [List.map_cons, lookupKey, if_neg hn, ih, List.mem_cons]
      by_cases hk : k ∈ rest
      · simp [hk, Ne.symm hn]
      · simp [hk, Ne.symm hn]

theorem lookup_varFields (es : List (String × Obj)) (k : String)
    (hk : k ∈ MType.mVariable.modelFields) :
    lookupKey (Variable.varFields es) k = some (fieldOrNone es k) := by
  simp [Variable.varFields, lookup_map_keys, hk]

theorem utdatertCommentOk_false_of_blank {es : List (String × Obj)}
    (hblank : ∀ s, lookupKey es "outdated_comment" = some (.prim (.vStr s)) →
      pyStrip s = "") :
    utdatertCommentOk es = false := by
  rw [utdatertCommentOk]
  cases hcm : lookupKey es "outdated_comment" with
  | none => rfl
  | some co =>
    cases co with
    | prim pv =>
      cases pv with
      | vStr s => simp [hblank s hcm]
      | vNone => rfl
      | vInt n => rfl
      | vBool b => rfl
      | vList xs => rfl
      | vDict es2 => rfl
    | omodel t fs => rfl
    | odict es2 => rfl
    | odmap vt es2 => rfl

theorem fieldChecks_ok_utdatert {es : List (String × Obj)} {u : Unit}
    (hc : Variable.fieldChecks es = Except.ok u)
    (hunit : lookupKey es "unit" = some (.prim (.vStr "utdatert"))) :
    utdatertCommentOk es = true := by
  rw [Variable.fieldChecks] at hc
  split at hc
  · rename_i nameStr unitStr dtypeStr hname hu hd
    rw [hunit] at hu
    have hus : unitStr = "utdatert" := by
      have := Option.some.inj hu
      have := Obj.prim.inj this
      have := Value.vStr.inj this
      exact this.symm
    split_ifs at hc with h1 h2 h3 h4
    all_goals try cases hc
    rw [hus] at h3
    simpa using h3
  · cases hc

/-- C7: validating a Variable whose unit is utdatert succeeds only with a
present, non-blank outdated_comment: a successful validation of such a
mapping always carries a non-blank comment string, and a mapping with
unit utdatert whose comment is absent, None, a non-string, or blank
always raises at validation time, before any entry joins a collection. -/
theorem C7_utdatert_requires_comment :
    (∀ es m, Variable.model_validate (.odict es) = Except.ok m →
      m.getField "unit" = some (.prim (.vStr "utdatert")) →
      ∃ s, m.getField "outdated_comment" = some (.prim (.vStr s)) ∧ pyStrip s ≠ "")
    ∧ (∀ es, lookupKey es "unit" = some (.prim (.vStr "utdatert")) →
        (∀ s, lookupKey es "outdated_comment" = some (.prim (.vStr s)) →
          pyStrip s = "") →
        ∃ msg, Variable.model_validate (.odict es) = Except.error msg) := by
  constructor
  · intro es m hok hunit
    simp only [Variable.model_validate] at hok
    cases hc : Variable.fieldChecks es with
    | error e =>
      rw [hc] at hok
      simp [except_map_error] at hok
    | ok u =>
      rw [hc] at hok
      simp only [except_map_ok] at hok
      cases hok
      have hunit2 : lookupKey es "unit" = some (Obj.prim (.vStr "utdatert")) := by
        have hlv := lookup_varFields es "unit" (by simp [MType.modelFields])
        rw [Obj.getField] at hunit
        rw [hlv] at hunit
        cases hlk : lookupKey es "unit" with
        | none => simp [fieldOrNone, hlk] at hunit
        | some o =>
          simp only [fieldOrNone, hlk, Option.getD_some, Option.some.injEq] at hunit
          rw [hunit]
      have hcomok := fieldChecks_ok_utdatert hc hunit2
      rw [utdatertCommentOk] at hcomok
      cases hcm : lookupKey es "outdated_comment" with
      | none => rw [hcm] at hcomok; simp at hcomok
      | some co =>
        rw [hcm] at hcomok
        cases co with
        | prim pv =>
          cases pv with
          | vStr s =>
            refine ⟨s, ?_, ?_⟩
            · rw [Obj.getField, lookup_varFields es _ (by simp [MType.modelFields])]
              simp [fieldOrNone, hcm]
            · simpa using hcomok
          | vNone => simp at hcomok
          | vInt n => simp at hcomok
          | vBool b => simp at hcomok
          | vList xs => simp at hcomok
          | vDict es2 => simp at hcomok
        | omodel t fs => simp at hcomok
        | odict es2 => simp at hcomok
        | odmap vt es2 => simp at hcomok
  · intro es hunit hblank
    have hcu := utdatertCommentOk_false_of_blank hblank
    cases hc : Variable.fieldChecks es with
    | error e =>
      refine ⟨e, ?_⟩
      simp [Variable.model_validate, hc, except_map_error]
    | ok u =>
      exfalso
      have := fieldChecks_ok_utdatert hc hunit
      rw [hcu] at this
      exact Bool.false_ne_true this

/-- C7 witness: a Variable mapping with unit utdatert and no
outdated_comment fails validation. -/
theorem C7_utdatert_requires_comment_witness :
    ∃ msg, Variable.model_validate (.odict (Obj.ofValueEntries
      [("name", .vStr "test_navn"), ("unit", .vStr "utdatert"),
       ("dtype", .vStr "STRING")])) = Except.error msg := by
  apply C7_utdatert_requires_comment.2
  · rfl
  · intro s hs
    simp [Obj.ofValueEntries, Obj.ofValue, lookupKey] at hs

/-! ## C9: declaration keys are injected as names unconditionally -/

theorem lookup_ofValueEntries (es : List (String × Value)) (k : String) :
    lookupKey (Obj.ofValueEntries es) k = (lookupKey es k).map Obj.ofValue := by
  induction es with
  | nil => simp [Obj.ofValueEntries, lookupKey]
  | cons p rest ih =>
    obtain ⟨a, b⟩ := p
    by_cases ha : a = k
    · simp [Obj.ofValueEntries, lookupKey, ha]
    · simp [Obj.ofValueEntries, lookupKey, ha, ih]

theorem variable_mv_odict {es : List (String × Obj)} {m : Obj}
    (h : Variable.model_validate (.odict es) = Except.ok m) :
    m = Obj.omodel .mVariable (Variable.varFields es) := by
  simp only [Variable.model_validate] at h
  cases hc : Variable.fieldChecks es with
  | error e =>
    rw [hc] at h
    simp [except_map_error] at h
  | ok u =>
    rw [hc] at h
    simp only [except_map_ok] at h
    exact (Except.ok.inj h).symm

/-- Every entry of an injected variables table is either a non-table or a
table whose name key holds its declaration key. -/
theorem injectEntryNames_spec {vs : List (String × Value)} {kv : String × Value}
    (hmem : kv ∈ injectEntryNames vs) :
    ∀ es, kv.2 = Value.vDict es → lookupKey es "name" = some (Value.vStr kv.1) := by
  simp only [injectEntryNames, List.mem_map] at hmem
  obtain ⟨kv0, _, heq⟩ := hmem
  intro es hes
  cases hv : kv0.2 with
  | vDict es0 =>
    rw [hv] at heq
    have h1 : kv.1 = kv0.1 := by rw [← heq]
    have h2 : kv.2 = Value.vDict (setKey es0 "name" (Value.vStr kv0.1)) := by rw [← heq]
    rw [h2] at hes
    have hes2 := Value.vDict.inj hes
    rw [← hes2, h1]
    exact lookup_setKey_self es0 "name" (Value.vStr kv0.1)
  | vNone => rw [hv] at heq; rw [← heq] at hes; cases hes
  | vStr s => rw [hv] at heq; rw [← heq] at hes; cases hes
  | vInt n => rw [hv] at heq; rw [← heq] at hes; cases hes
  | vBool b => rw [hv] at heq; rw [← heq] at hes; cases hes
  | vList xs => rw [hv] at heq; rw [← heq] at hes; cases hes

/-- Fold invariant of validateVarEntries: starting from a state whose
entries all carry their key as name, validating injected entries keeps
that property. -/
theorem validateVarEntries_names :
    ∀ (vars : List (String × Value)) (acc ves : List (String × Obj)),
    (∀ kv ∈ acc, Obj.getField kv.2 "name" = some (.prim (.vStr kv.1))) →
    (∀ kv ∈ vars, ∀ es, kv.2 = Value.vDict es →
      lookupKey es "name" = some (Value.vStr kv.1)) →
    vars.foldlM
      (fun (acc : List (String × Obj)) (kv : String × Value) => do
        let var ← Variable.model_validate (Obj.ofValue kv.2)
        Except.ok (setKey acc kv.1 var))
      acc = Except.ok ves →
    ∀ kv ∈ ves, Obj.getField kv.2 "name" = some (.prim (.vStr kv.1)) := by
  intro vars
  induction vars with
  | nil =>
    intro acc ves hacc _ hfold
    simp only [List.foldlM_nil, except_pure] at hfold
    cases hfold
    exact hacc
  | cons p rest ih =>
    intro acc ves hacc hinj hfold
    obtain ⟨k, v⟩ := p
    simp only [List.foldlM_cons] at hfold
    cases hv : Variable.model_validate (Obj.ofValue v) with
    | error e =>
      rw [hv] at hfold
      simp [except_bind_error] at hfold
    | ok var =>
      rw [hv] at hfold
      simp only [except_bind_ok] at hfold
      refine ih (setKey acc k var) ves ?_
        (fun kv hkv es hes => hinj kv (List.mem_cons_of_mem _ hkv) es hes) hfold
      intro kv hkv
      rcases mem_setKey hkv with hmem | heq
      · exact hacc kv hmem
      · rw [heq]
        cases hvv : v with
        | vDict es0 =>
          rw [hvv] at hv
          have hov : Obj.ofValue (Value.vDict es0) = .odict (Obj.ofValueEntries es0) := rfl
          rw [hov] at hv
          have hm := variable_mv_odict hv
          rw [hm]
          have hinj0 := hinj (k, v) (List.mem_cons_self _ _) es0 (by rw [hvv])
          simp only [Obj.getField]
          rw [lookup_varFields _ _ (by simp [MType.modelFields])]
          simp only [fieldOrNone, lookup_ofValueEntries, hinj0, Option.map_some]
          rfl
        | vNone => rw [hvv] at hv; exact absurd hv (by simp [Variable.model_validate, Obj.ofValue])
        | vStr s => rw [hvv] at hv; exact absurd hv (by simp [Variable.model_validate, Obj.ofValue])
        | vInt n => rw [hvv] at hv; exact absurd hv (by simp [Variable.model_validate, Obj.ofValue])
        | vBool b => rw [hvv] at hv; exact absurd hv (by simp [Variable.model_validate, Obj.ofValue])
        | vList xs => rw [hvv] at hv; exact absurd hv (by simp [Variable.model_validate, Obj.ofValue])

/-- A successful VariablesFile validation requires the variables key to
hold a parsed table. -/
theorem vfile_mv_requires_dict {data : List (String × Value)} {vf : VariablesFileS}
    (hok : VariablesFile.model_validate data = Except.ok vf) :
    ∃ vs0, lookupKey data "variables" = some (Value.vDict vs0) := by
  rw [VariablesFile.model_validate] at hok
  cases hvars : lookupKey data "variables" with
  | some vval =>
    cases vval with
    | vDict vs0 => exact ⟨vs0, rfl⟩
    | vNone =>
      exfalso
      have hd2 : _inject_variable_names data = data := by
        simp [_inject_variable_names, hvars]
      rw [hd2] at hok
      cases hsu : parseSortUnit (lookupKey data "variables_sort_unit") with
      | error e => rw [hsu] at hok; simp [except_bind_error] at hok
      | ok su => rw [hsu] at hok; simp only [except_bind_ok] at hok; rw [hvars] at hok; simp at hok
    | vStr s =>
      exfalso
      have hd2 : _inject_variable_names data = data := by
        simp [_inject_variable_names, hvars]
      rw [hd2] at hok
      cases hsu : parseSortUnit (lookupKey data "variables_sort_unit") with
      | error e => rw [hsu] at hok; simp [except_bind_error] at hok
      | ok su => rw [hsu] at hok; simp only [except_bind_ok] at hok; rw [hvars] at hok; simp at hok
    | vInt n =>
      exfalso
      have hd2 : _inject_variable_names data = data := by
        simp [_inject_variable_names, hvars]
      rw [hd2] at hok
      cases hsu : parseSortUnit (lookupKey data "variables_sort_unit") with
      | error e => rw [hsu] at hok; simp [except_bind_error] at hok
      | ok su => rw [hsu] at hok; simp only [except_bind_ok] at hok; rw [hvars] at hok; simp at hok
    | vBool b =>
      exfalso
      have hd2 : _inject_variable_names data = data := by
        simp [_inject_variable_names, hvars]
      rw [hd2] at hok
      cases hsu : parseSortUnit (lookupKey data "variables_sort_unit") with
      | error e => rw [hsu] at hok; simp [except_bind_error] at hok
      | ok su => rw [hsu] at hok; simp only [except_bind_ok] at hok; rw [hvars] at hok; simp at hok
    | vList xs =>
      exfalso
      have hd2 : _inject_variable_names data = data := by
        simp [_inject_variable_names, hvars]
      rw [hd2] at hok
      cases hsu : parseSortUnit (lookupKey data "variables_sort_unit") with
      | error e => rw [hsu] at hok; simp [except_bind_error] at hok
      | ok su => rw [hsu] at hok; simp only [except_bind_ok] at hok; rw [hvars] at hok; simp at hok
  | none =>
    exfalso
    have hd2 : _inject_variable_names data = data := by
      simp [_inject_variable_names, hvars]
    rw [hd2] at hok
    cases hsu : parseSortUnit (lookupKey data "variables_sort_unit") with
    | error e => rw [hsu] at hok; simp [except_bind_error] at hok
    | ok su => rw [hsu] at hok; simp only [except_bind_ok] at hok; rw [hvars] at hok; simp at hok

/-- C9: after VariablesFile validation of a parsed file, every variable
entry carries its mapping key as its name field; an explicitly declared
name that differs from the key is overwritten, as the concrete entry y
declaring name z shows. -/
theorem C9_names_equal_keys :
    (∀ data vf, VariablesFile.model_validate data = Except.ok vf →
      ∀ kv ∈ vf.variablesMap,
        Obj.getField kv.2 "name" = some (.prim (.vStr kv.1)))
    ∧ (VariablesFile.model_validate
        [("variables", .vDict [("y", .vDict
          [("name", .vStr "z"), ("unit", .vStr "u"),
           ("dtype", .vStr "STRING")])])]).map
        (fun vf => vf.variablesMap.map (fun kv => (kv.1, kv.2.getField "name"))) =
      Except.ok [("y", some (.prim (.vStr "y")))] := by
  constructor
  · intro data vf hok kv hkv
    obtain ⟨vs0, hvars⟩ := vfile_mv_requires_dict hok
    rw [VariablesFile.model_validate] at hok
    have hdata2 : _inject_variable_names data =
        setKey data "variables" (Value.vDict (injectEntryNames vs0)) := by
      rw [_inject_variable_names, hvars]
    rw [hdata2] at hok
    rw [lookup_setKey_self] at hok
    cases hsu : parseSortUnit (lookupKey
        (setKey data "variables" (Value.vDict (injectEntryNames vs0)))
        "variables_sort_unit") with
    | error e =>
      rw [hsu] at hok
      simp [except_bind_error] at hok
    | ok su =>
      rw [hsu] at hok
      simp only [except_bind_ok] at hok
      cases hve : validateVarEntries (injectEntryNames vs0) with
      | error e =>
        rw [hve] at hok
        simp [except_bind_error] at hok
      | ok ves =>
        rw [hve] at hok
        simp only [except_bind_ok, except_pure] at hok
        cases hok
        rw [validateVarEntries] at hve
        exact validateVarEntries_names (injectEntryNames vs0) [] ves
          (by intro kv2 h2; simp at h2)
          (fun kv2 h2 => injectEntryNames_spec h2) hve kv hkv
  · rfl

/-! ## C6: synthesized label variables -/

theorem label_key_inj {a b : String} (h : a ++ "_label" = b ++ "_label") : a = b := by
  have h2 : (a ++ "_label").data = (b ++ "_label").data := congrArg String.data h
  rw [String.data_append, String.data_append] at h2
  exact String.ext (List.append_cancel_right h2)

theorem contains_setKey_ne {α : Type} (es : List (String × α)) (k x : String) (v : α)
    (h : x ≠ k) : containsKey (setKey es k v) x = containsKey es x := by
  simp [containsKey, lookup_setKey_ne es k x v h]

theorem coerce_instance_ok {lv : Obj} (h : VType.isInstance .vtVariable lv = true) :
    coerceVT .vtVariable lv = Except.ok lv := by
  simp [coerceVT, h]

theorem labelStep_lookup_ne {acc acc2 : List (String × Obj)} {kv : String × Obj}
    (h : labelStep acc kv = Except.ok acc2) {x : String} (hx : x ≠ kv.1 ++ "_label") :
    lookupKey acc2 x = lookupKey acc x := by
  rw [labelStep] at h
  split at h
  · rename_i n hn
    split at h
    · cases h; rfl
    · cases hmv : Variable.model_validate (labelInput kv.1 kv.2) with
      | error e => rw [hmv] at h; simp [except_bind_error] at h
      | ok lv =>
        rw [hmv] at h
        simp only [except_bind_ok] at h
        rw [DotMapDict_setitem] at h
        cases hc : coerceVT .vtVariable lv with
        | error e => rw [hc] at h; simp [except_map_error] at h
        | ok c =>
          rw [hc] at h
          simp only [except_map_ok] at h
          cases h
          exact lookup_setKey_ne acc _ x c hx
  · cases h; rfl

theorem expand_fold_preserves :
    ∀ (entries : List (String × Obj)) (acc labels : List (String × Obj)),
    entries.foldlM labelStep acc = Except.ok labels →
    ∀ x o, lookupKey acc x = some o → (∀ kv ∈ entries, x ≠ kv.1 ++ "_label") →
    lookupKey labels x = some o := by
  intro entries
  induction entries with
  | nil =>
    intro acc labels hfold x o hx _
    simp only [List.foldlM_nil, except_pure] at hfold
    cases hfold
    exact hx
  | cons p rest ih =>
    intro acc labels hfold x o hx hne
    simp only [List.foldlM_cons] at hfold
    cases hstep : labelStep acc p with
    | error e => rw [hstep] at hfold; simp [except_bind_error] at hfold
    | ok acc2 =>
      rw [hstep] at hfold
      simp only [except_bind_ok] at hfold
      refine ih acc2 labels hfold x o ?_
        (fun kv hkv => hne kv (List.mem_cons_of_mem _ hkv))
      rw [labelStep_lookup_ne hstep (hne p (List.mem_cons_self _ _))]
      exact hx

theorem expand_fold_mem :
    ∀ (entries : List (String × Obj)) (acc labels : List (String × Obj)),
    (entries.map Prod.fst).Nodup →
    entries.foldlM labelStep acc = Except.ok labels →
    ∀ kv ∈ entries, ∀ n : Int,
    Obj.getField kv.2 "klass_codelist" = some (.prim (.vInt n)) → 0 < n →
    ∃ lv, Variable.model_validate (labelInput kv.1 kv.2) = Except.ok lv ∧
      lookupKey labels (kv.1 ++ "_label") = some lv ∧
      VType.isInstance .vtVariable lv = true := by
  intro entries
  induction entries with
  | nil => intro acc labels _ _ kv hkv; simp at hkv
  | cons p rest ih =>
    intro acc labels hnodup hfold kv hkv n hkl hn
    simp only [List.foldlM_cons] at hfold
    cases hstep : labelStep acc p with
    | error e => rw [hstep] at hfold; simp [except_bind_error] at hfold
    | ok acc2 =>
      rw [hstep] at hfold
      simp only [except_bind_ok] at hfold
      rcases List.mem_cons.mp hkv with heq | hmem
      · subst heq
        simp only [labelStep, hkl] at hstep
        rw [if_neg (show ¬ n ≤ 0 by omega)] at hstep
        cases hmv : Variable.model_validate (labelInput kv.1 kv.2) with
        | error e => rw [hmv] at hstep; simp [except_bind_error] at hstep
        | ok lv =>
          rw [hmv] at hstep
          simp only [except_bind_ok] at hstep
          have hinst : VType.isInstance .vtVariable lv = true := by
            have := variable_mv_odict (show Variable.model_validate (.odict
              [("name", .prim (.vStr (kv.1 ++ "_label"))),
               ("unit", (kv.2.getField "unit").getD (.prim .vNone)),
               ("dtype", .prim (.vStr "STRING")),
               ("derived_from", .prim (.vList [.vStr kv.1]))]) = Except.ok lv from hmv)
            rw [this]
            rfl
          rw [DotMapDict_setitem, coerce_instance_ok hinst] at hstep
          simp only [except_map_ok] at hstep
          cases hstep
          refine ⟨lv, rfl, ?_, hinst⟩
          refine expand_fold_preserves rest _ labels hfold _ lv
            (lookup_setKey_self acc _ lv) ?_
          intro kv2 hkv2 habs
          have hk : kv.1 = kv2.1 := label_key_inj habs
          have : kv.1 ∉ rest.map Prod.fst := by
            simp only [List.map_cons, List.nodup_cons] at hnodup
            exact hnodup.1
          exact this (hk ▸ List.mem_map_of_mem Prod.fst hkv2)
      · exact ih acc2 labels
          (by simpa [List.nodup_cons] using (List.nodup_cons.mp (by simpa using hnodup)).2)
          hfold kv hmem n hkl hn

theorem insert_fold_preserves :
    ∀ (labels merged merged2 : List (String × Obj)),
    labels.foldlM labelInsertStep merged = Except.ok merged2 →
    ∀ x o, lookupKey merged x = some o → lookupKey merged2 x = some o := by
  intro labels
  induction labels with
  | nil =>
    intro merged merged2 hfold x o hx
    simp only [List.foldlM_nil, except_pure] at hfold
    cases hfold
    exact hx
  | cons p rest ih =>
    intro merged merged2 hfold x o hx
    simp only [List.foldlM_cons] at hfold
    cases hstep : labelInsertStep merged p with
    | error e => rw [hstep] at hfold; simp [except_bind_error] at hfold
    | ok m2 =>
      rw [hstep] at hfold
      simp only [except_bind_ok] at hfold
      refine ih m2 merged2 hfold x o ?_
      rw [labelInsertStep] at hstep
      by_cases hcm : containsKey merged p.1 = true
      · rw [if_pos hcm] at hstep
        cases hstep
        exact hx
      · rw [if_neg hcm] at hstep
        by_cases hxp : x = p.1
        · exfalso
          apply hcm
          rw [hxp] at hx
          simp [containsKey, hx]
        · rw [DotMapDict_setitem] at hstep
          cases hc : coerceVT .vtVariable p.2 with
          | error e => rw [hc] at hstep; simp [except_map_error] at hstep
          | ok c =>
            rw [hc] at hstep
            simp only [except_map_ok] at hstep
            cases hstep
            rw [lookup_setKey_ne merged _ x c hxp]
            exact hx

theorem insert_fold_contains :
    ∀ (labels merged merged2 : List (String × Obj)),
    labels.foldlM labelInsertStep merged = Except.ok merged2 →
    ∀ kv ∈ labels, containsKey merged2 kv.1 = true := by
  intro labels
  induction labels with
  | nil => intro merged merged2 _ kv hkv; simp at hkv
  | cons p rest ih =>
    intro merged merged2 hfold kv hkv
    simp only [List.foldlM_cons] at hfold
    cases hstep : labelInsertStep merged p with
    | error e => rw [hstep] at hfold; simp [except_bind_error] at hfold
    | ok m2 =>
      rw [hstep] at hfold
      simp only [except_bind_ok] at hfold
      rcases List.mem_cons.mp hkv with heq | hmem
      · subst heq
        have hm2 : ∃ o, lookupKey m2 kv.1 = some o := by
          rw [labelInsertStep] at hstep
          by_cases hcm : containsKey merged kv.1 = true
          · rw [if_pos hcm] at hstep
            cases hstep
            simpa [containsKey, Option.isSome_iff_exists] using hcm
          · rw [if_neg hcm] at hstep
            rw [DotMapDict_setitem] at hstep
            cases hc : coerceVT .vtVariable kv.2 with
            | error e => rw [hc] at hstep; simp [except_map_error] at hstep
            | ok c =>
              rw [hc] at hstep
              simp only [except_map_ok] at hstep
              cases hstep
              exact ⟨c, lookup_setKey_self merged _ c⟩
        obtain ⟨o, ho⟩ := hm2
        have := insert_fold_preserves rest m2 merged2 hfold kv.1 o ho
        simp [containsKey, this]
      · exact ih m2 merged2 hfold kv hmem

theorem insert_fold_new :
    ∀ (labels merged merged2 : List (String × Obj)),
    (∀ kv ∈ labels, VType.isInstance .vtVariable kv.2 = true) →
    labels.foldlM labelInsertStep merged = Except.ok merged2 →
    ∀ k lv, lookupKey labels k = some lv → containsKey merged k = false →
    lookupKey merged2 k = some lv := by
  intro labels
  induction labels with
  | nil => intro merged merged2 _ _ k lv hlk; simp [lookupKey] at hlk
  | cons p rest ih =>
    intro merged merged2 hinst hfold k lv hlk hnc
    simp only [List.foldlM_cons] at hfold
    cases hstep : labelInsertStep merged p with
    | error e => rw [hstep] at hfold; simp [except_bind_error] at hfold
    | ok m2 =>
      rw [hstep] at hfold
      simp only [except_bind_ok] at hfold
      obtain ⟨pk, pv⟩ := p
      by_cases hpk : pk = k
      · subst hpk
        simp only [lookupKey, if_pos rfl] at hlk
        cases hlk
        rw [labelInsertStep] at hstep
        rw [if_neg (by simp [hnc])] at hstep
        rw [DotMapDict_setitem] at hstep
        rw [coerce_instance_ok (hinst (pk, lv) (List.mem_cons_self _ _))] at hstep
        simp only [except_map_ok] at hstep
        cases hstep
        exact insert_fold_preserves rest _ merged2 hfold pk lv
          (lookup_setKey_self merged pk lv)
      · simp only [lookupKey, if_neg hpk] at hlk
        refine ih m2 merged2
          (fun kv hkv => hinst kv (List.mem_cons_of_mem _ hkv)) hfold k lv hlk ?_
        rw [labelInsertStep] at hstep
        by_cases hcm : containsKey merged pk = true
        · rw [if_pos hcm] at hstep
          cases hstep
          exact hnc
        · rw [if_neg hcm] at hstep
          rw [DotMapDict_setitem] at hstep
          rw [coerce_instance_ok (hinst (pk, pv) (List.mem_cons_self _ _))] at hstep
          simp only [except_map_ok] at hstep
          cases hstep
          rw [contains_setKey_ne merged pk k pv (fun h => hpk h.symm)]
          exact hnc

theorem lookup_mem {α : Type} {es : List (String × α)} {k : String} {v : α}
    (h : lookupKey es k = some v) : (k, v) ∈ es := by
  induction es with
  | nil => simp [lookupKey] at h
  | cons p rest ih =>
    obtain ⟨a, b⟩ := p
    by_cases ha : a = k
    · subst ha
      simp only [lookupKey, if_pos rfl] at h
      cases h
      exact List.mem_cons_self _ _
    · simp only [lookupKey, if_neg ha] at h
      exact List.mem_cons_of_mem _ (ih h)

theorem expand_fold_instances :
    ∀ (entries : List (String × Obj)) (acc labels : List (String × Obj)),
    (∀ kv ∈ acc, VType.isInstance .vtVariable kv.2 = true) →
    entries.foldlM labelStep acc = Except.ok labels →
    ∀ kv ∈ labels, VType.isInstance .vtVariable kv.2 = true := by
  intro entries
  induction entries with
  | nil =>
    intro acc labels hacc hfold
    simp only [List.foldlM_nil, except_pure] at hfold
    cases hfold
    exact hacc
  | cons p rest ih =>
    intro acc labels hacc hfold
    simp only [List.foldlM_cons] at hfold
    cases hstep : labelStep acc p with
    | error e => rw [hstep] at hfold; simp [except_bind_error] at hfold
    | ok acc2 =>
      rw [hstep] at hfold
      simp only [except_bind_ok] at hfold
      refine ih acc2 labels ?_ hfold
      rw [labelStep] at hstep
      split at hstep
      · rename_i n hn
        split at hstep
        · cases hstep; exact hacc
        · cases hmv : Variable.model_validate (labelInput p.1 p.2) with
          | error e => rw [hmv] at hstep; simp [except_bind_error] at hstep
          | ok lv =>
            rw [hmv] at hstep
            simp only [except_bind_ok] at hstep
            have hinst : VType.isInstance .vtVariable lv = true := by
              rw [labelInput] at hmv
              rw [variable_mv_odict hmv]
              rfl
            rw [DotMapDict_setitem, coerce_instance_ok hinst] at hstep
            simp only [except_map_ok] at hstep
            cases hstep
            intro kv hkv
            rcases mem_setKey hkv with hmem | heq
            · exact hacc kv hmem
            · rw [heq]
              exact hinst
      · cases hstep; exact hacc

/-- C6: after the variables merge, every entry of the derived-variables
source whose klass_codelist is a positive integer yields an entry named
name_label in the merged collection: the name is always present
afterwards; when no entry of that name existed before the pass, it is
exactly the synthesized label Variable (dtype STRING, the unit of the
source entry, derived_from the singleton of the source name); and a
pre-existing entry of that name is never overwritten. -/
theorem C6_label_variables :
    ∀ (dvf : VariablesFileS) (labels merged merged2 : List (String × Obj)),
    (dvf.variablesMap.map Prod.fst).Nodup →
    _expand_derived_label_variables dvf = Except.ok labels →
    insertLabelVariables labels merged = Except.ok merged2 →
    ∀ kv ∈ dvf.variablesMap, ∀ n : Int,
    Obj.getField kv.2 "klass_codelist" = some (.prim (.vInt n)) → 0 < n →
    containsKey merged2 (kv.1 ++ "_label") = true
    ∧ (containsKey merged (kv.1 ++ "_label") = false →
        ∃ lv, Variable.model_validate (labelInput kv.1 kv.2) = Except.ok lv
          ∧ lookupKey merged2 (kv.1 ++ "_label") = some lv
          ∧ Obj.getField lv "dtype" = some (.prim (.vStr "STRING"))
          ∧ Obj.getField lv "unit" =
              some ((Obj.getField kv.2 "unit").getD (.prim .vNone))
          ∧ Obj.getField lv "derived_from" = some (.prim (.vList [.vStr kv.1])))
    ∧ (∀ o, lookupKey merged (kv.1 ++ "_label") = some o →
        lookupKey merged2 (kv.1 ++ "_label") = some o) := by
  intro dvf labels merged merged2 hnd hexp hins kv hkv n hkl hn
  rw [_expand_derived_label_variables] at hexp
  rw [insertLabelVariables] at hins
  obtain ⟨lv, hmv, hlab, hinstlv⟩ :=
    expand_fold_mem dvf.variablesMap [] labels hnd hexp kv hkv n hkl hn
  have hinstAll := expand_fold_instances dvf.variablesMap [] labels
    (by intro kv2 h2; simp at h2) hexp
  refine ⟨?_, ?_, ?_⟩
  · exact insert_fold_contains labels merged merged2 hins _ (lookup_mem hlab)
  · intro hncm
    have hshape : lv = Obj.omodel .mVariable (Variable.varFields
        [("name", .prim (.vStr (kv.1 ++ "_label"))),
         ("unit", (Obj.getField kv.2 "unit").getD (.prim .vNone)),
         ("dtype", .prim (.vStr "STRING")),
         ("derived_from", .prim (.vList [.vStr kv.1]))]) := by
      rw [labelInput] at hmv
      exact variable_mv_odict hmv
    refine ⟨lv, hmv,
      insert_fold_new labels merged merged2 hinstAll hins _ lv hlab hncm, ?_, ?_, ?_⟩
    · rw [hshape, Obj.getField,
        lookup_varFields _ _ (by simp [MType.modelFields])]
      simp [fieldOrNone, lookupKey]
    · rw [hshape, Obj.getField,
        lookup_varFields _ _ (by simp [MType.modelFields])]
      simp [fieldOrNone, lookupKey]
    · rw [hshape, Obj.getField,
        lookup_varFields _ _ (by simp [MType.modelFields])]
      simp [fieldOrNone, lookupKey]
  · intro o ho
    exact insert_fold_preserves labels merged merged2 hins _ o ho

/-- C6 witness: expanding the one-entry derived file and inserting into
an empty merged collection makes d1_label present. -/
theorem C6_label_variables_witness :
    ∃ labels merged2,
      _expand_derived_label_variables exDvf = Except.ok labels
      ∧ insertLabelVariables labels [] = Except.ok merged2
      ∧ containsKey merged2 ("d1" ++ "_label") = true := by
  refine ⟨_, _, rfl, rfl, ?_⟩
  exact (C6_label_variables exDvf _ [] _ (by simp [exDvf]) rfl rfl
    ("d1", exDerivedVar) (by simp [exDvf]) 5 (by rfl) (by decide)).1

/-! ## C2: processing order of configuration files -/

theorem mem_insertByName {f x : TomlFile} :
    ∀ l, x ∈ insertByName f l → x = f ∨ x ∈ l := by
  intro l
  induction l with
  | nil =>
    intro h
    simp [insertByName] at h
    exact Or.inl h
  | cons g rest ih =>
    intro h
    rw [insertByName] at h
    by_cases hle : nameLe f.1 g.1 = true
    · rw [if_pos hle] at h
      rcases List.mem_cons.mp h with h1 | h2
      · exact Or.inl h1
      · exact Or.inr h2
    · rw [if_neg hle] at h
      rcases List.mem_cons.mp h with h1 | h2
      · exact Or.inr (h1 ▸ List.mem_cons_self _ _)
      · rcases ih h2 with h3 | h4
        · exact Or.inl h3
        · exact Or.inr (List.mem_cons_of_mem _ h4)

theorem perm_insertByName (f : TomlFile) :
    ∀ l, (insertByName f l).Perm (f :: l) := by
  intro l
  induction l with
  | nil => simp [insertByName]
  | cons g rest ih =>
    rw [insertByName]
    by_cases hle : nameLe f.1 g.1 = true
    · rw [if_pos hle]
    · rw [if_neg hle]
      exact (ih.cons g).trans (List.Perm.swap f g rest)

theorem perm_sortByName : ∀ l : List TomlFile, (sortByName l).Perm l := by
  intro l
  induction l with
  | nil => simp [sortByName]
  | cons f rest ih =>
    have h1 : sortByName (f :: rest) = insertByName f (sortByName rest) := rfl
    rw [h1]
    exact (perm_insertByName f (sortByName rest)).trans (ih.cons f)

/-- The name order files are sorted by. -/
theorem charListLe_refl : ∀ as : List Char, charListLe as as = true := by
  intro as
  induction as with
  | nil => rfl
  | cons a as ih => simp [charListLe, lt_irrefl, ih]

theorem nameLe_refl (a : String) : nameLe a a = true := charListLe_refl a.data

theorem charListLe_trans : ∀ {as bs cs : List Char}, charListLe as bs = true →
    charListLe bs cs = true → charListLe as cs = true := by
  intro as
  induction as with
  | nil => intro bs cs _ _; rfl
  | cons a as ih =>
    intro bs cs h1 h2
    cases bs with
    | nil => simp [charListLe] at h1
    | cons b bs =>
      cases cs with
      | nil => simp [charListLe] at h2
      | cons c cs =>
        simp only [charListLe] at h1 h2 ⊢
        rcases lt_trichotomy a b with hab | hab | hab
        · rcases lt_trichotomy b c with hbc | hbc | hbc
          · simp [hab.trans hbc]
          · simp [hbc ▸ hab]
          · rw [if_neg (asymm hbc), if_pos hbc] at h2
            exact absurd h2 (by simp)
        · subst hab
          rcases lt_trichotomy a c with hac | hac | hac
          · simp [hac]
          · subst hac
            rw [if_neg (lt_irrefl a), if_neg (lt_irrefl a)] at h1 h2 ⊢
            exact ih h1 h2
          · rw [if_neg (asymm hac), if_pos hac] at h2
            exact absurd h2 (by simp)
        · rw [if_neg (asymm hab), if_pos hab] at h1
          exact absurd h1 (by simp)

theorem nameLe_trans {a b c : String} (h1 : nameLe a b = true)
    (h2 : nameLe b c = true) : nameLe a c = true := charListLe_trans h1 h2

theorem charListLe_total : ∀ as bs : List Char,
    charListLe as bs = true ∨ charListLe bs as = true := by
  intro as
  induction as with
  | nil => intro bs; left; rfl
  | cons a as ih =>
    intro bs
    cases bs with
    | nil => right; rfl
    | cons b bs =>
      rcases lt_trichotomy a b with hab | hab | hab
      · left; simp [charListLe, hab]
      · subst hab
        rcases ih bs with h | h
        · left; simp [charListLe, lt_irrefl, h]
        · right; simp [charListLe, lt_irrefl, h]
      · right; simp [charListLe, hab]

theorem nameLe_of_not_nameLe {a b : String} (h : ¬ nameLe a b = true) :
    nameLe b a = true := (charListLe_total a.data b.data).resolve_left h

theorem charListLe_antisymm : ∀ {as bs : List Char}, charListLe as bs = true →
    charListLe bs as = true → as = bs := by
  intro as
  induction as with
  | nil =>
    intro bs h1 h2
    cases bs with
    | nil => rfl
    | cons b bs => simp [charListLe] at h2
  | cons a as ih =>
    intro bs h1 h2
    cases bs with
    | nil => simp [charListLe] at h1
    | cons b bs =>
      simp only [charListLe] at h1 h2
      rcases lt_trichotomy a b with hab | hab | hab
      · rw [if_neg (asymm hab), if_pos hab] at h2
        exact absurd h2 (by simp)
      · subst hab
        rw [if_neg (lt_irrefl a), if_neg (lt_irrefl a)] at h1 h2
        rw [ih h1 h2]
      · rw [if_neg (asymm hab), if_pos hab] at h1
        exact absurd h1 (by simp)

theorem nameLe_antisymm {a b : String} (h1 : nameLe a b = true)
    (h2 : nameLe b a = true) : a = b := by
  cases a with
  | mk as =>
    cases b with
    | mk bs =>
      have : as = bs := charListLe_antisymm h1 h2
      rw [this]

def fileLE (a b : TomlFile) : Prop := nameLe a.1 b.1 = true

theorem sorted_insertByName {f : TomlFile} :
    ∀ {l}, List.Sorted fileLE l → List.Sorted fileLE (insertByName f l) := by
  intro l
  induction l with
  | nil => intro _; simp [insertByName, List.sorted_singleton]
  | cons g rest ih =>
    intro hs
    rw [insertByName]
    rcases List.sorted_cons.mp hs with ⟨hg, hrest⟩
    by_cases hle : nameLe f.1 g.1 = true
    · rw [if_pos hle]
      refine List.sorted_cons.mpr ⟨?_, hs⟩
      intro b hb
      rcases List.mem_cons.mp hb with h1 | h2
      · exact h1 ▸ hle
      · exact nameLe_trans hle (hg b h2)
    · rw [if_neg hle]
      refine List.sorted_cons.mpr ⟨?_, ih hrest⟩
      intro b hb
      rcases mem_insertByName _ hb with h1 | h2
      · rw [h1]
        exact nameLe_of_not_nameLe hle
      · exact hg b h2

theorem sorted_sortByName : ∀ l : List TomlFile, List.Sorted fileLE (sortByName l) := by
  intro l
  induction l with
  | nil => simp [sortByName]
  | cons f rest ih => exact sorted_insertByName ih

theorem sorted_nodup_perm_eq :
    ∀ l1 l2 : List TomlFile, List.Sorted fileLE l1 → List.Sorted fileLE l2 →
    l1.Perm l2 → (l1.map Prod.fst).Nodup → l1 = l2 := by
  intro l1
  induction l1 with
  | nil =>
    intro l2 _ _ hperm _
    exact List.Perm.nil_eq hperm
  | cons a l1t ih =>
    intro l2 hs1 hs2 hperm hnd
    cases l2 with
    | nil => exact absurd hperm.symm (by simp)
    | cons b l2t =>
      have hab : a = b := by
        have hbmem : b ∈ a :: l1t := hperm.mem_iff.mpr (List.mem_cons_self _ _)
        have hamem : a ∈ b :: l2t := hperm.mem_iff.mp (List.mem_cons_self _ _)
        have h1 : nameLe a.1 b.1 = true := by
          rcases List.mem_cons.mp hbmem with h | h
          · rw [h]; exact nameLe_refl _
          · exact (List.sorted_cons.mp hs1).1 b h
        have h2 : nameLe b.1 a.1 = true := by
          rcases List.mem_cons.mp hamem with h | h
          · rw [h]; exact nameLe_refl _
          · exact (List.sorted_cons.mp hs2).1 a h
        have hname : a.1 = b.1 := nameLe_antisymm h1 h2
        rcases List.mem_cons.mp hbmem with h | h
        · exact h.symm
        · exfalso
          have : a.1 ∈ l1t.map Prod.fst := hname ▸ List.mem_map_of_mem Prod.fst h
          exact (List.nodup_cons.mp (by simpa using hnd)).1 this
      subst hab
      have htail : l1t.Perm l2t := hperm.cons_inv
      have := ih l2t (List.sorted_cons.mp hs1).2 (List.sorted_cons.mp hs2).2 htail
        (by simpa using (List.nodup_cons.mp (by simpa using hnd)).2)
      rw [this]

theorem sortByName_canonical {l1 l2 : List TomlFile}
    (hperm : l1.Perm l2) (hnd : (l1.map Prod.fst).Nodup) :
    sortByName l1 = sortByName l2 := by
  refine sorted_nodup_perm_eq _ _ (sorted_sortByName l1) (sorted_sortByName l2)
    ((perm_sortByName l1).trans (hperm.trans (perm_sortByName l2).symm)) ?_
  have : (sortByName l1).map Prod.fst |>.Perm (l1.map Prod.fst) :=
    (perm_sortByName l1).map Prod.fst
  exact this.nodup_iff.mpr hnd

theorem contains_iff_mem_keys {α : Type} (es : List (String × α)) (k : String) :
    containsKey es k = true ↔ k ∈ es.map Prod.fst := by
  induction es with
  | nil => simp [containsKey, lookupKey]
  | cons p rest ih =>
    obtain ⟨a, b⟩ := p
    by_cases ha : a = k
    · subst ha
      simp [containsKey, lookupKey]
    · simp only [containsKey, lookupKey, if_neg ha, List.map_cons, List.mem_cons]
      rw [← containsKey]
      rw [ih]
      simp [Ne.symm ha]

theorem setKey_keys {α : Type} (es : List (String × α)) (k : String) (v : α) :
    (setKey es k v).map Prod.fst =
      if containsKey es k then es.map Prod.fst else es.map Prod.fst ++ [k] := by
  induction es with
  | nil => simp [setKey, containsKey, lookupKey]
  | cons p rest ih =>
    obtain ⟨a, b⟩ := p
    by_cases ha : a = k
    · subst ha
      simp [setKey, containsKey, lookupKey]
    · simp only [setKey, if_neg ha, List.map_cons, containsKey, lookupKey]
      rw [← containsKey]
      rw [ih]
      by_cases hc : containsKey rest k = true
      · simp [hc, ha]
      · have hc2 : containsKey rest k = false := by simpa using hc
        simp [hc2, ha]

theorem nodup_setKey {α : Type} {es : List (String × α)} {k : String} {v : α}
    (h : (es.map Prod.fst).Nodup) : ((setKey es k v).map Prod.fst).Nodup := by
  rw [setKey_keys]
  by_cases hc : containsKey es k = true
  · simp [hc, h]
  · have hc2 : containsKey es k = false := by simpa using hc
    have hk : k ∉ es.map Prod.fst := by
      intro hmem
      rw [← contains_iff_mem_keys] at hmem
      rw [hmem] at hc2
      cases hc2
    simp [hc2]
    exact List.Nodup.append h (List.nodup_singleton k) (by simpa using hk)

theorem coerce_isInstance_ok {vt : VType} {v : Obj} (h : vt.isInstance v = true) :
    coerceVT vt v = Except.ok v := by
  cases vt <;> simp [coerceVT, h]

theorem dataset_mv_shape {v d : Obj}
    (h : Dataset.model_validate v = Except.ok d) :
    ∃ fs, d = Obj.omodel .mDataset fs := by
  match v, h with
  | .omodel .mDataset fs, h =>
    simp only [Dataset.model_validate] at h
    cases h
    exact ⟨fs, rfl⟩
  | .odict es, h =>
    simp only [Dataset.model_validate] at h
    cases hc : Dataset.fieldChecks es with
    | error e => rw [hc] at h; simp [except_bind_error] at h
    | ok u =>
      rw [hc] at h
      simp only [except_bind_ok] at h
      cases hs : Dataset.subMaps es with
      | error e => rw [hs] at h; simp [except_bind_error] at h
      | ok sm =>
        rw [hs] at h
        simp only [except_bind_ok] at h
        cases h
        exact ⟨_, rfl⟩

/-! Lemmas about the datasets-table validation fold. -/

theorem dsEntry_fold_keys :
    ∀ (ds : List (String × Value)) (acc out : List (String × Obj)),
    ds.foldlM dsEntryStep acc = Except.ok out →
    ∀ x d, lookupKey out x = some d →
      containsKey ds x = true ∨ lookupKey acc x = some d := by
  intro ds
  induction ds with
  | nil =>
    intro acc out hfold x d hx
    simp only [List.foldlM_nil, except_pure] at hfold
    cases hfold
    exact Or.inr hx
  | cons p rest ih =>
    intro acc out hfold x d hx
    simp only [List.foldlM_cons] at hfold
    rw [dsEntryStep] at hfold
    cases hmv : Dataset.model_validate (Obj.ofValue p.2) with
    | error e => rw [hmv] at hfold; simp [except_bind_error] at hfold
    | ok dd =>
      rw [hmv] at hfold
      simp only [except_bind_ok] at hfold
      rcases ih _ out hfold x d hx with hcont | hacc
      · left
        obtain ⟨a, b⟩ := p
        by_cases hax : a = x
        · simp [containsKey, lookupKey, hax]
        · rw [contains_iff_mem_keys] at hcont ⊢
          simp only [List.map_cons, List.mem_cons]
          exact Or.inr hcont
      · by_cases hpx : x = p.1
        · left
          obtain ⟨a, b⟩ := p
          simp_all [containsKey, lookupKey]
        · right
          rw [lookup_setKey_ne acc p.1 x dd hpx] at hacc
          exact hacc

theorem dsEntry_fold_nodup :
    ∀ (ds : List (String × Value)) (acc out : List (String × Obj)),
    (acc.map Prod.fst).Nodup →
    ds.foldlM dsEntryStep acc = Except.ok out →
    (out.map Prod.fst).Nodup := by
  intro ds
  induction ds with
  | nil =>
    intro acc out hacc hfold
    simp only [List.foldlM_nil, except_pure] at hfold
    cases hfold
    exact hacc
  | cons p rest ih =>
    intro acc out hacc hfold
    simp only [List.foldlM_cons] at hfold
    rw [dsEntryStep] at hfold
    cases hmv : Dataset.model_validate (Obj.ofValue p.2) with
    | error e => rw [hmv] at hfold; simp [except_bind_error] at hfold
    | ok dd =>
      rw [hmv] at hfold
      simp only [except_bind_ok] at hfold
      exact ih _ out (nodup_setKey hacc) hfold

theorem dsEntry_fold_instances :
    ∀ (ds : List (String × Value)) (acc out : List (String × Obj)),
    (∀ kv ∈ acc, VType.isInstance .vtDataset kv.2 = true) →
    ds.foldlM dsEntryStep acc = Except.ok out →
    ∀ kv ∈ out, VType.isInstance .vtDataset kv.2 = true := by
  intro ds
  induction ds with
  | nil =>
    intro acc out hacc hfold
    simp only [List.foldlM_nil, except_pure] at hfold
    cases hfold
    exact hacc
  | cons p rest ih =>
    intro acc out hacc hfold
    simp only [List.foldlM_cons] at hfold
    rw [dsEntryStep] at hfold
    cases hmv : Dataset.model_validate (Obj.ofValue p.2) with
    | error e => rw [hmv] at hfold; simp [except_bind_error] at hfold
    | ok dd =>
      rw [hmv] at hfold
      simp only [except_bind_ok] at hfold
      refine ih _ out ?_ hfold
      intro kv hkv
      rcases mem_setKey hkv with hmem | heq
      · exact hacc kv hmem
      · rw [heq]
        obtain ⟨fs, rfl⟩ := dataset_mv_shape hmv
        rfl

theorem dsEntry_fold_defines :
    ∀ (ds : List (String × Value)) (acc out : List (String × Obj)),
    (ds.map Prod.fst).Nodup →
    ds.foldlM dsEntryStep acc = Except.ok out →
    ∀ k v, lookupKey ds k = some v →
    ∃ d, Dataset.model_validate (Obj.ofValue v) = Except.ok d ∧
      lookupKey out k = some d := by
  intro ds
  induction ds with
  | nil => intro acc out _ _ k v hkv; simp [lookupKey] at hkv
  | cons p rest ih =>
    intro acc out hnd hfold k v hkv
    simp only [List.foldlM_cons] at hfold
    rw [dsEntryStep] at hfold
    obtain ⟨pk, pv⟩ := p
    cases hmv : Dataset.model_validate (Obj.ofValue pv) with
    | error e => rw [hmv] at hfold; simp [except_bind_error] at hfold
    | ok dd =>
      rw [hmv] at hfold
      simp only [except_bind_ok] at hfold
      by_cases hpk : pk = k
      · subst hpk
        simp only [lookupKey, if_pos rfl] at hkv
        cases hkv
        refine ⟨dd, hmv, ?_⟩
        -- the rest of the fold never touches key pk again
        have hrest : ∀ x dx, lookupKey out x = some dx →
            containsKey rest x = true ∨ lookupKey (setKey acc pk dd) x = some dx :=
          dsEntry_fold_keys rest _ out hfold
        have hnotin : containsKey rest pk = false := by
          simp only [List.map_cons, List.nodup_cons] at hnd
          rw [← Bool.not_eq_true]
          intro hcc
          exact hnd.1 ((contains_iff_mem_keys _ _).mp hcc)
        -- show lookup out pk = some dd via a preservation induction
        have hpres : ∀ (rest2 : List (String × Value)) (acc2 out2 : List (String × Obj)),
            rest2.foldlM dsEntryStep acc2 = Except.ok out2 →
            containsKey rest2 pk = false →
            lookupKey out2 pk = lookupKey acc2 pk := by
          intro rest2
          induction rest2 with
          | nil =>
            intro acc2 out2 hf _
            simp only [List.foldlM_nil, except_pure] at hf
            cases hf
            rfl
          | cons q qrest ihq =>
            intro acc2 out2 hf hnc
            simp only [List.foldlM_cons] at hf
            rw [dsEntryStep] at hf
            cases hmv2 : Dataset.model_validate (Obj.ofValue q.2) with
            | error e => rw [hmv2] at hf; simp [except_bind_error] at hf
            | ok dd2 =>
              rw [hmv2] at hf
              simp only [except_bind_ok] at hf
              have hq : q.1 ≠ pk := by
                intro hq
                obtain ⟨qk, qv⟩ := q
                simp only at hq
                subst hq
                simp [containsKey, lookupKey] at hnc
              have hnc2 : containsKey qrest pk = false := by
                obtain ⟨qk, qv⟩ := q
                simp only [containsKey, lookupKey] at hnc
                rw [if_neg (by simpa using hq)] at hnc
                exact hnc
              rw [ihq _ out2 hf hnc2]
              exact lookup_setKey_ne acc2 q.1 pk dd2 (Ne.symm hq)
        rw [hpres rest _ out hfold hnotin]
        exact lookup_setKey_self acc pk dd
      · simp only [lookupKey, if_neg hpk] at hkv
        exact ih _ out
          (by simpa using (List.nodup_cons.mp (by simpa using hnd)).2)
          hfold k v hkv

/-! Lemmas about the per-file dataset insertion fold. -/

theorem dsInsert_fold_preserve :
    ∀ (entries : List (String × Obj)) (acc out : List (String × Obj)),
    entries.foldlM dsInsertStep acc = Except.ok out →
    ∀ x, x ∉ entries.map Prod.fst → lookupKey out x = lookupKey acc x := by
  intro entries
  induction entries with
  | nil =>
    intro acc out hfold x _
    simp only [List.foldlM_nil, except_pure] at hfold
    cases hfold
    rfl
  | cons p rest ih =>
    intro acc out hfold x hx
    simp only [List.foldlM_cons] at hfold
    rw [dsInsertStep, DotMapDict_setitem] at hfold
    cases hc : coerceVT .vtDataset p.2 with
    | error e => rw [hc] at hfold; simp [except_map_error, except_bind_error] at hfold
    | ok c =>
      rw [hc] at hfold
      simp only [except_map_ok, except_bind_ok] at hfold
      have hx1 : x ≠ p.1 := by
        intro h
        exact hx (h ▸ List.mem_cons_self _ _)
      have hx2 : x ∉ rest.map Prod.fst := fun h => hx (List.mem_cons_of_mem _ h)
      rw [ih _ out hfold x hx2]
      exact lookup_setKey_ne acc p.1 x c hx1

theorem dsInsert_fold_defines :
    ∀ (entries : List (String × Obj)) (acc out : List (String × Obj)),
    (∀ kv ∈ entries, VType.isInstance .vtDataset kv.2 = true) →
    (entries.map Prod.fst).Nodup →
    entries.foldlM dsInsertStep acc = Except.ok out →
    ∀ k d, (k, d) ∈ entries → lookupKey out k = some d := by
  intro entries
  induction entries with
  | nil => intro acc out _ _ _ k d hkd; simp at hkd
  | cons p rest ih =>
    intro acc out hinst hnd hfold k d hkd
    simp only [List.foldlM_cons] at hfold
    rw [dsInsertStep, DotMapDict_setitem] at hfold
    cases hc : coerceVT .vtDataset p.2 with
    | error e => rw [hc] at hfold; simp [except_map_error, except_bind_error] at hfold
    | ok c =>
      rw [hc] at hfold
      simp only [except_map_ok, except_bind_ok] at hfold
      rcases List.mem_cons.mp hkd with heq | hmem
      · have hpd : p = (k, d) := heq.symm
        subst hpd
        have hcd : c = d := by
          have := coerce_isInstance_ok (hinst (k, d) (List.mem_cons_self _ _))
          rw [this] at hc
          exact (Except.ok.inj hc).symm
        subst hcd
        have hnotin : k ∉ rest.map Prod.fst := by
          simp only [List.map_cons, List.nodup_cons] at hnd
          exact hnd.1
        rw [dsInsert_fold_preserve rest _ out hfold k hnotin]
        exact lookup_setKey_self acc k c
      · exact ih _ out (fun kv hkv => hinst kv (List.mem_cons_of_mem _ hkv))
          (by simpa using (List.nodup_cons.mp (by simpa using hnd)).2)
          hfold k d hmem

/-! Lemmas about the dataset file fold. -/

theorem dsFile_fold_preserve :
    ∀ (gfiles : List TomlFile) (acc out : List (String × Obj)),
    gfiles.foldlM dsFileStep acc = Except.ok out →
    ∀ k, (∀ f ∈ gfiles, rawDatasetHas f k = false) →
    lookupKey out k = lookupKey acc k := by
  intro gfiles
  induction gfiles with
  | nil =>
    intro acc out hfold k _
    simp only [List.foldlM_nil, except_pure] at hfold
    cases hfold
    rfl
  | cons f rest ih =>
    intro acc out hfold k hno
    simp only [List.foldlM_cons] at hfold
    rw [dsFileStep] at hfold
    cases hmv : DatasetsFile.model_validate f.2 with
    | error e => rw [hmv] at hfold; simp [except_bind_error] at hfold
    | ok dff =>
      rw [hmv] at hfold
      simp only [except_bind_ok] at hfold
      cases hstep : dff.foldlM dsInsertStep acc with
      | error e => rw [hstep] at hfold; simp [except_bind_error] at hfold
      | ok acc2 =>
        rw [hstep] at hfold
        simp only [except_bind_ok] at hfold
        rw [ih _ out hfold k (fun f2 h2 => hno f2 (List.mem_cons_of_mem _ h2))]
        -- entries of dff only carry keys the file defines
        cases hds : lookupKey f.2 "datasets" with
        | none => simp [DatasetsFile.model_validate, hds] at hmv
        | some dval =>
          cases dval with
          | vDict ds =>
            simp only [DatasetsFile.model_validate, hds] at hmv
            have hk : k ∉ dff.map Prod.fst := by
              intro hmem
              obtain ⟨d, hd⟩ := by
                rw [← contains_iff_mem_keys] at hmem
                simpa [containsKey, Option.isSome_iff_exists] using hmem
              rcases dsEntry_fold_keys ds [] dff hmv k d hd with hcont | habs
              · have hraw := hno f (List.mem_cons_self _ _)
                simp only [rawDatasetHas, rawDatasetDef, hds] at hraw
                simp only [containsKey] at hcont
                rw [hcont] at hraw
                cases hraw
              · simp [lookupKey] at habs
            exact dsInsert_fold_preserve dff acc acc2 hstep k hk
          | vNone => simp [DatasetsFile.model_validate, hds] at hmv
          | vStr s => simp [DatasetsFile.model_validate, hds] at hmv
          | vInt n => simp [DatasetsFile.model_validate, hds] at hmv
          | vBool b => simp [DatasetsFile.model_validate, hds] at hmv
          | vList xs => simp [DatasetsFile.model_validate, hds] at hmv

/-- C2 counterexample: the claim says the base variables load processes
its files in lexical path order, so loading in any enumeration order
would equal loading the lexically sorted list; with two files both
defining variable x, loading in the order b-then-a (as a filesystem
enumeration may yield) keeps the unit of a, while the lexically sorted
order keeps the unit of b. -/
theorem C2_load_not_lexical_counterexample :
    ¬ (_load_variables [exFileB, exFileA] =
        _load_variables (sortByName [exFileB, exFileA])) := by
  intro h
  have h2 : unitNamesOf (_load_variables [exFileB, exFileA]) =
      unitNamesOf (_load_variables (sortByName [exFileB, exFileA])) := by rw [h]
  have e1 : unitNamesOf (_load_variables [exFileB, exFileA]) =
      Except.ok ["ua"] := rfl
  have e2 : unitNamesOf (_load_variables (sortByName [exFileB, exFileA])) =
      Except.ok ["ub"] := rfl
  rw [e1, e2] at h2
  simp at h2

/-- C2 amended: merge_tomls sorts its directory lexically, so its result
does not depend on the enumeration order of distinct file names; the base
dataset load instead processes files in the order the enumeration yields
them, and when two sources define the same dataset key the last-processed
one is the entry present in the merged collection, with no conflict
error. -/
theorem C2_merge_order_amended :
    (∀ (cfg : Obj) (files files2 : List TomlFile),
      (files.map Prod.fst).Nodup → files.Perm files2 →
      merge_tomls cfg files = merge_tomls cfg files2)
    ∧ (∀ (fs1 fs2 : List TomlFile) (f : TomlFile) (k : String) (v : Value)
        (dss : List (String × Obj)),
        _load_datasets (fs1 ++ f :: fs2) = Except.ok dss →
        (pyStartsWith f.1 "datasets" && pyEndsWith f.1 ".toml") = true →
        (∀ ds, lookupKey f.2 "datasets" = some (.vDict ds) →
          (ds.map Prod.fst).Nodup) →
        rawDatasetDef f k = some v →
        (∀ f2 ∈ fs2, rawDatasetHas f2 k = false) →
        ∃ d, Dataset.model_validate (Obj.ofValue v) = Except.ok d ∧
          lookupKey dss k = some d) := by
  constructor
  · intro cfg files files2 hnd hperm
    rw [merge_tomls, merge_tomls]
    have hs : sortByName (files.filter (fun f => pyEndsWith f.1 ".toml")) =
        sortByName (files2.filter (fun f => pyEndsWith f.1 ".toml")) := by
      apply sortByName_canonical
      · exact hperm.filter _
      · exact List.Nodup.sublist ((List.filter_sublist files).map Prod.fst) hnd
    rw [hs]
  · intro fs1 fs2 f k v dss hload hpat hnodup hdef hno2
    rw [_load_datasets] at hload
    have hglob : globDatasets (fs1 ++ f :: fs2) =
        globDatasets fs1 ++ f :: globDatasets fs2 := by
      simp [globDatasets, List.filter_append, List.filter_cons, hpat]
    rw [hglob, List.foldlM_append] at hload
    cases hacc1 : (globDatasets fs1).foldlM dsFileStep [] with
    | error e => rw [hacc1] at hload; simp [except_bind_error] at hload
    | ok m1 =>
      rw [hacc1] at hload
      simp only [except_bind_ok] at hload
      simp only [List.foldlM_cons] at hload
      rw [dsFileStep] at hload
      cases hds : lookupKey f.2 "datasets" with
      | none => simp [rawDatasetDef, hds] at hdef
      | some dval =>
        cases dval with
        | vDict ds =>
          simp only [rawDatasetDef, hds] at hdef
          cases hmvf : DatasetsFile.model_validate f.2 with
          | error e => rw [hmvf] at hload; simp [except_bind_error] at hload
          | ok dff =>
            rw [hmvf] at hload
            simp only [except_bind_ok] at hload
            simp only [DatasetsFile.model_validate, hds] at hmvf
            obtain ⟨d, hdok, hdff⟩ :=
              dsEntry_fold_defines ds [] dff (hnodup ds hds) hmvf k v hdef
            have hinstAll := dsEntry_fold_instances ds [] dff
              (by intro kv h2; simp at h2) hmvf
            have hnddd := dsEntry_fold_nodup ds [] dff (by simp) hmvf
            cases hstep : dff.foldlM dsInsertStep m1 with
            | error e => rw [hstep] at hload; simp [except_bind_error] at hload
            | ok m2 =>
              rw [hstep] at hload
              simp only [except_bind_ok] at hload
              have hm2 : lookupKey m2 k = some d :=
                dsInsert_fold_defines dff m1 m2 hinstAll hnddd hstep k d
                  (lookup_mem hdff)
              have hpres : lookupKey dss k = lookupKey m2 k :=
                dsFile_fold_preserve (globDatasets fs2) m2 dss hload k
                  (fun f2 h2 => hno2 f2 (List.mem_filter.mp h2).1)
              exact ⟨d, hdok, by rw [hpres, hm2]⟩
        | vNone => simp [rawDatasetDef, hds] at hdef
        | vStr s => simp [rawDatasetDef, hds] at hdef
        | vInt n => simp [rawDatasetDef, hds] at hdef
        | vBool b => simp [rawDatasetDef, hds] at hdef
        | vList xs => simp [rawDatasetDef, hds] at hdef

/-- C2 witness: the two amended conjuncts at concrete inputs: swapping
the enumeration order of the two variable files leaves merge_tomls
unchanged, and loading one dataset file puts its validated entry under
its key. -/
theorem C2_merge_order_amended_witness :
    merge_tomls (.odict []) [exFileB, exFileA] =
      merge_tomls (.odict []) [exFileA, exFileB]
    ∧ ∃ dss, _load_datasets [exDsFile] = Except.ok dss
      ∧ ∃ d, Dataset.model_validate (Obj.ofValue exDsEntryRaw) = Except.ok d
        ∧ lookupKey dss "t1" = some d := by
  constructor
  · exact C2_merge_order_amended.1 (.odict []) [exFileB, exFileA] [exFileA, exFileB]
      (by simp [exFileA, exFileB]) (List.Perm.swap exFileA exFileB [])
  · refine ⟨_, rfl, ?_⟩
    refine C2_merge_order_amended.2 [] [] exDsFile "t1" exDsEntryRaw _ rfl rfl ?_ rfl ?_
    · intro ds hds
      have h2 : some (Value.vDict exDsTable) = some (Value.vDict ds) := hds
      rw [← Value.vDict.inj (Option.some.inj h2)]
      simp [exDsTable]
    · intro f2 h2
      simp at h2

/-! ## C5: redundant-override lemmas -/

theorem setKey_lookup_self {a : Type} {es : List (String × a)} {k : String} {v : a}
    (h : lookupKey es k = some v) : setKey es k v = es := by
  induction es with
  | nil => simp [lookupKey] at h
  | cons p rest ih =>
    obtain ⟨x, b⟩ := p
    by_cases ha : x = k
    · subst ha
      simp only [lookupKey, if_pos rfl] at h
      injection h with h
      subst h
      simp [setKey]
    · simp only [lookupKey, if_neg ha] at h
      simp [setKey, ha, ih h]

theorem ofValue_scalar {v : Value} (h : isScalarV v = true) :
    Obj.ofValue v = .prim v := by
  cases v <;> simp [isScalarV] at h <;> rfl

theorem objEqValue_scalar {cur : Obj} {v : Value} (hs : isScalarV v = true)
    (h : objEqValue cur v = true) : cur = .prim v := by
  cases cur with
  | prim p =>
    simp only [objEqValue] at h
    cases p <;> cases v <;> simp [valueBeq, isScalarV] at h hs <;> simp [h]
  | omodel mt fs => cases v <;> simp [objEqValue, isScalarV] at h hs
  | odict es => cases v <;> simp [objEqValue, isScalarV] at h hs
  | odmap vt es => cases v <;> simp [objEqValue, isScalarV] at h hs

theorem coerce_prim_id {vt : VType} {p : Value} {c : Obj}
    (h : coerceVT vt (.prim p) = Except.ok c) : c = .prim p := by
  cases vt <;> cases p <;>
    simp_all [coerceVT, VType.isInstance, Variable.model_validate,
      Dataset.model_validate, PathEntry.model_validate]

theorem redundantWarns_cons_inv {t : Obj} {k0 : String} {v0 : Value}
    {rest : List (String × Value)} {path ws : List String}
    (h : redundantWarns t ((k0, v0) :: rest) path = some ws) :
    ∃ w1 ws2, redundantWarns t rest path = some ws2 ∧ ws = w1 ++ ws2 ∧
      (isScalarV v0 = true → w1 = [joinDot (path ++ [k0])]) := by
  cases t with
  | prim p => simp [redundantWarns] at h
  | odmap vt es =>
    cases v0 with
    | vNone => simp [redundantWarns, _is_none_sentinel] at h
    | vList xs =>
      simp only [redundantWarns, _is_none_sentinel] at h
      rw [if_neg (by simp)] at h
      simp [isScalarV] at h
    | vDict dv =>
      simp only [redundantWarns, _is_none_sentinel] at h
      rw [if_neg (by simp)] at h
      cases hlk : lookupKey es k0 with
      | none => rw [hlk] at h; simp at h
      | some cur =>
        rw [hlk] at h
        dsimp only at h
        by_cases hm : isMergeable cur = true
        · rw [if_pos hm] at h
          cases hw1 : redundantWarns cur (injectNameV vt dv k0) (path ++ [k0]) with
          | none => rw [hw1] at h; simp at h
          | some w1 =>
            rw [hw1] at h
            cases hw2 : redundantWarns (.odmap vt es) rest path with
            | none => rw [hw2] at h; simp at h
            | some w2 =>
              rw [hw2] at h
              simp at h
              exact ⟨w1, w2, rfl, h.symm, fun hs => by simp [isScalarV] at hs⟩
        · rw [if_neg hm] at h
          exact absurd h (by simp)
    | vStr s =>
      by_cases hsent : _is_none_sentinel (.vStr s) = true
      · simp [redundantWarns, hsent] at h
      · simp only [redundantWarns] at h
        rw [if_neg hsent] at h
        rw [if_pos (by simp [isScalarV])] at h
        cases hlk : lookupKey es k0 with
        | none => rw [hlk] at h; simp at h
        | some cur =>
          rw [hlk] at h
          dsimp only at h
          by_cases heq : objEqValue cur (.vStr s) = true
          · rw [if_pos heq] at h
            cases hco : coerceVT vt (Obj.ofValue (.vStr s)) with
            | error e => rw [hco] at h; simp at h
            | ok c =>
              rw [hco] at h
              dsimp only at h
              cases hrest : redundantWarns (.odmap vt es) rest path with
              | none => rw [hrest] at h; simp at h
              | some ws2 =>
                rw [hrest] at h
                simp at h
                exact ⟨[joinDot (path ++ [k0])], ws2, rfl, by simp [← h],
                  fun _ => rfl⟩
          · rw [if_neg heq] at h
            exact absurd h (by simp)
    | vInt n =>
      simp only [redundantWarns, _is_none_sentinel] at h
      rw [if_neg (by simp)] at h
      rw [if_pos (by simp [isScalarV])] at h
      cases hlk : lookupKey es k0 with
      | none => rw [hlk] at h; simp at h
      | some cur =>
        rw [hlk] at h
        dsimp only at h
        by_cases heq : objEqValue cur (.vInt n) = true
        · rw [if_pos heq] at h
          cases hco : coerceVT vt (Obj.ofValue (.vInt n)) with
          | error e => rw [hco] at h; simp at h
          | ok c =>
            rw [hco] at h
            dsimp only at h
            cases hrest : redundantWarns (.odmap vt es) rest path with
            | none => rw [hrest] at h; simp at h
            | some ws2 =>
              rw [hrest] at h
              simp at h
              exact ⟨[joinDot (path ++ [k0])], ws2, rfl, by simp [← h],
                fun _ => rfl⟩
        · rw [if_neg heq] at h
          exact absurd h (by simp)
    | vBool b =>
      simp only [redundantWarns, _is_none_sentinel] at h
      rw [if_neg (by simp)] at h
      rw [if_pos (by simp [isScalarV])] at h
      cases hlk : lookupKey es k0 with
      | none => rw [hlk] at h; simp at h
      | some cur =>
        rw [hlk] at h
        dsimp only at h
        by_cases heq : objEqValue cur (.vBool b) = true
        · rw [if_pos heq] at h
          cases hco : coerceVT vt (Obj.ofValue (.vBool b)) with
          | error e => rw [hco] at h; simp at h
          | ok c =>
            rw [hco] at h
            dsimp only at h
            cases hrest : redundantWarns (.odmap vt es) rest path with
            | none => rw [hrest] at h; simp at h
            | some ws2 =>
              rw [hrest] at h
              simp at h
              exact ⟨[joinDot (path ++ [k0])], ws2, rfl, by simp [← h],
                fun _ => rfl⟩
        · rw [if_neg heq] at h
          exact absurd h (by simp)
  | omodel mt fs =>
    by_cases hf : ((MType.modelFields mt).contains k0) = true
    · cases v0 with
      | vNone =>
        simp only [redundantWarns, hf] at h
        simp [_is_none_sentinel] at h
      | vList xs =>
        simp only [redundantWarns, hf] at h
        rw [if_neg (by simp), if_neg (by simp [_is_none_sentinel])] at h
        simp [isScalarV] at h
      | vDict dv =>
        simp only [redundantWarns, hf] at h
        rw [if_neg (by simp), if_neg (by simp [_is_none_sentinel])] at h
        cases hlk : lookupKey fs k0 with
        | none => rw [hlk] at h; simp at h
        | some cur =>
          rw [hlk] at h
          dsimp only at h
          by_cases hm : isMergeable cur = true
          · rw [if_pos hm] at h
            cases hw1 : redundantWarns cur dv (path ++ [k0]) with
            | none => rw [hw1] at h; simp at h
            | some w1 =>
              rw [hw1] at h
              cases hw2 : redundantWarns (.omodel mt fs) rest path with
              | none => rw [hw2] at h; simp at h
              | some w2 =>
                rw [hw2] at h
                simp at h
                exact ⟨w1, w2, rfl, h.symm, fun hs => by simp [isScalarV] at hs⟩
          · rw [if_neg hm] at h
            exact absurd h (by simp)
      | vStr s =>
        by_cases hsent : _is_none_sentinel (.vStr s) = true
        · simp [redundantWarns, hf, hsent] at h
        · simp only [redundantWarns, hf] at h
          rw [if_neg (by simp), if_neg hsent] at h
          rw [if_pos (by simp [isScalarV])] at h
          cases hlk : lookupKey fs k0 with
          | none => rw [hlk] at h; simp at h
          | some cur =>
            rw [hlk] at h
            dsimp only at h
            by_cases heq : objEqValue cur (.vStr s) = true
            · rw [if_pos heq] at h
              cases hrest : redundantWarns (.omodel mt fs) rest path with
              | none => rw [hrest] at h; simp at h
              | some ws2 =>
                rw [hrest] at h
                simp at h
                exact ⟨[joinDot (path ++ [k0])], ws2, rfl, by simp [← h],
                  fun _ => rfl⟩
            · rw [if_neg heq] at h
              exact absurd h (by simp)
      | vInt n =>
        simp only [redundantWarns, hf] at h
        rw [if_neg (by simp), if_neg (by simp [_is_none_sentinel])] at h
        rw [if_pos (by simp [isScalarV])] at h
        cases hlk : lookupKey fs k0 with
        | none => rw [hlk] at h; simp at h
        | some cur =>
          rw [hlk] at h
          dsimp only at h
          by_cases heq : objEqValue cur (.vInt n) = true
          · rw [if_pos heq] at h
            cases hrest : redundantWarns (.omodel mt fs) rest path with
            | none => rw [hrest] at h; simp at h
            | some ws2 =>
              rw [hrest] at h
              simp at h
              exact ⟨[joinDot (path ++ [k0])], ws2, rfl, by simp [← h],
                fun _ => rfl⟩
          · rw [if_neg heq] at h
            exact absurd h (by simp)
      | vBool b =>
        simp only [redundantWarns, hf] at h
        rw [if_neg (by simp), if_neg (by simp [_is_none_sentinel])] at h
        rw [if_pos (by simp [isScalarV])] at h
        cases hlk : lookupKey fs k0 with
        | none => rw [hlk] at h; simp at h
        | some cur =>
          rw [hlk] at h
          dsimp only at h
          by_cases heq : objEqValue cur (.vBool b) = true
          · rw [if_pos heq] at h
            cases hrest : redundantWarns (.omodel mt fs) rest path with
            | none => rw [hrest] at h; simp at h
            | some ws2 =>
              rw [hrest] at h
              simp at h
              exact ⟨[joinDot (path ++ [k0])], ws2, rfl, by simp [← h],
                fun _ => rfl⟩
          · rw [if_neg heq] at h
            exact absurd h (by simp)
    · have hfb : (MType.modelFields mt).contains k0 = false := by
        cases hcb : (MType.modelFields mt).contains k0
        · rfl
        · exact absurd hcb hf
      cases v0 <;> simp only [redundantWarns] at h <;>
        rw [if_pos (by rw [hfb]; rfl)] at h <;>
        exact absurd h (by simp)
  | odict es =>
    cases v0 with
    | vNone => simp [redundantWarns, _is_none_sentinel] at h
    | vList xs =>
      simp only [redundantWarns, _is_none_sentinel] at h
      rw [if_neg (by simp)] at h
      simp [isScalarV] at h
    | vDict dv =>
      simp only [redundantWarns, _is_none_sentinel] at h
      rw [if_neg (by simp)] at h
      cases hlk : lookupKey es k0 with
      | none => rw [hlk] at h; simp at h
      | some cur =>
        rw [hlk] at h
        dsimp only at h
        by_cases hm : isMergeable cur = true
        · rw [if_pos hm] at h
          cases hw1 : redundantWarns cur dv (path ++ [k0]) with
          | none => rw [hw1] at h; simp at h
          | some w1 =>
            rw [hw1] at h
            cases hw2 : redundantWarns (.odict es) rest path with
            | none => rw [hw2] at h; simp at h
            | some w2 =>
              rw [hw2] at h
              simp at h
              exact ⟨w1, w2, rfl, h.symm, fun hs => by simp [isScalarV] at hs⟩
        · rw [if_neg hm] at h
          exact absurd h (by simp)
    | vStr s =>
      by_cases hsent : _is_none_sentinel (.vStr s) = true
      · simp [redundantWarns, hsent] at h
      · simp only [redundantWarns] at h
        rw [if_neg hsent] at h
        rw [if_pos (by simp [isScalarV])] at h
        cases hlk : lookupKey es k0 with
        | none => rw [hlk] at h; simp at h
        | some cur =>
          rw [hlk] at h
          dsimp only at h
          by_cases heq : objEqValue cur (.vStr s) = true
          · rw [if_pos heq] at h
            cases hrest : redundantWarns (.odict es) rest path with
            | none => rw [hrest] at h; simp at h
            | some ws2 =>
              rw [hrest] at h
              simp at h
              exact ⟨[joinDot (path ++ [k0])], ws2, rfl, by simp [← h],
                fun _ => rfl⟩
          · rw [if_neg heq] at h
            exact absurd h (by simp)
    | vInt n =>
      simp only [redundantWarns, _is_none_sentinel] at h
      rw [if_neg (by simp)] at h
      rw [if_pos (by simp [isScalarV])] at h
      cases hlk : lookupKey es k0 with
      | none => rw [hlk] at h; simp at h
      | some cur =>
        rw [hlk] at h
        dsimp only at h
        by_cases heq : objEqValue cur (.vInt n) = true
        · rw [if_pos heq] at h
          cases hrest : redundantWarns (.odict es) rest path with
          | none => rw [hrest] at h; simp at h
          | some ws2 =>
            rw [hrest] at h
            simp at h
            exact ⟨[joinDot (path ++ [k0])], ws2, rfl, by simp [← h],
              fun _ => rfl⟩
        · rw [if_neg heq] at h
          exact absurd h (by simp)
    | vBool b =>
      simp only [redundantWarns, _is_none_sentinel] at h
      rw [if_neg (by simp)] at h
      rw [if_pos (by simp [isScalarV])] at h
      cases hlk : lookupKey es k0 with
      | none => rw [hlk] at h; simp at h
      | some cur =>
        rw [hlk] at h
        dsimp only at h
        by_cases heq : objEqValue cur (.vBool b) = true
        · rw [if_pos heq] at h
          cases hrest : redundantWarns (.odict es) rest path with
          | none => rw [hrest] at h; simp at h
          | some ws2 =>
            rw [hrest] at h
            simp at h
            exact ⟨[joinDot (path ++ [k0])], ws2, rfl, by simp [← h],
              fun _ => rfl⟩
        · rw [if_neg heq] at h
          exact absurd h (by simp)

theorem mergeM_redundant_fuel : ∀ (n : Nat) (t : Obj) (u : List (String × Value))
    (path ws : List String), esWeight u ≤ n →
    redundantWarns t u path = some ws →
    mergeM t u path = Except.ok (t, ws) := by
  intro n
  induction n with
  | zero =>
    intro t u path ws hw hr
    cases u with
    | nil =>
      cases t <;> simp only [redundantWarns, Option.some.injEq] at hr <;>
        subst hr <;> simp [mergeM]
    | cons p rest =>
      obtain ⟨k, v⟩ := p
      exfalso
      simp only [esWeight] at hw
      omega
  | succ n ih =>
    intro t u path ws hw hr
    cases u with
    | nil =>
      cases t <;> simp only [redundantWarns, Option.some.injEq] at hr <;>
        subst hr <;> simp [mergeM]
    | cons p rest =>
      obtain ⟨k0, v0⟩ := p
      have hb2 : esWeight rest ≤ n := by simp only [esWeight] at hw; omega
      cases t with
      | prim p2 => simp [redundantWarns] at hr
      | odmap vt es =>
        cases v0 with
        | vNone => simp [redundantWarns, _is_none_sentinel] at hr
        | vList xs =>
          simp only [redundantWarns, _is_none_sentinel] at hr
          rw [if_neg (by simp)] at hr
          simp [isScalarV] at hr
        | vDict dv =>
          simp only [redundantWarns, _is_none_sentinel] at hr
          rw [if_neg (by simp)] at hr
          cases hlk : lookupKey es k0 with
          | none => rw [hlk] at hr; simp at hr
          | some cur =>
            rw [hlk] at hr
            dsimp only at hr
            by_cases hm : isMergeable cur = true
            · rw [if_pos hm] at hr
              cases hw1 : redundantWarns cur (injectNameV vt dv k0) (path ++ [k0]) with
              | none => rw [hw1] at hr; simp at hr
              | some w1 =>
                rw [hw1] at hr
                cases hw2 : redundantWarns (.odmap vt es) rest path with
                | none => rw [hw2] at hr; simp at hr
                | some w2 =>
                  rw [hw2] at hr
                  simp at hr
                  have hb1 : esWeight (injectNameV vt dv k0) ≤ n := by
                    have hj := esWeight_injectNameV vt dv k0
                    simp only [esWeight, vWeight] at hw
                    omega
                  have hm1 := ih cur (injectNameV vt dv k0) (path ++ [k0]) w1 hb1 hw1
                  have hm2 := ih (.odmap vt es) rest path w2 hb2 hw2
                  have hset : setKey es k0 cur = es := setKey_lookup_self hlk
                  subst hr
                  simp [mergeM, _is_none_sentinel, hlk, hm, hm1, hset, hm2,
                    except_bind_ok]
            · rw [if_neg hm] at hr
              exact absurd hr (by simp)
        | vStr s =>
          by_cases hsent : _is_none_sentinel (.vStr s) = true
          · simp [redundantWarns, hsent] at hr
          · simp only [redundantWarns] at hr
            rw [if_neg hsent] at hr
            rw [if_pos (by simp [isScalarV])] at hr
            cases hlk : lookupKey es k0 with
            | none => rw [hlk] at hr; simp at hr
            | some cur =>
              rw [hlk] at hr
              dsimp only at hr
              by_cases heq : objEqValue cur (.vStr s) = true
              · rw [if_pos heq] at hr
                cases hco : coerceVT vt (Obj.ofValue (.vStr s)) with
                | error e => rw [hco] at hr; simp at hr
                | ok c =>
                  rw [hco] at hr
                  dsimp only at hr
                  cases hrest : redundantWarns (.odmap vt es) rest path with
                  | none => rw [hrest] at hr; simp at hr
                  | some ws2 =>
                    rw [hrest] at hr
                    simp at hr
                    have hcur : cur = .prim (.vStr s) :=
                      objEqValue_scalar (by simp [isScalarV]) heq
                    have hc : c = .prim (.vStr s) := coerce_prim_id hco
                    have hset : setKey es k0 c = es := by
                      rw [hc, ← hcur]; exact setKey_lookup_self hlk
                    have hm2 := ih (.odmap vt es) rest path ws2 hb2 hrest
                    subst hr
                    simp [mergeM, hsent, hlk, heq, hco, hset, hm2, except_bind_ok]
              · rw [if_neg heq] at hr
                exact absurd hr (by simp)
        | vInt num =>
          simp only [redundantWarns, _is_none_sentinel] at hr
          rw [if_neg (by simp)] at hr
          rw [if_pos (by simp [isScalarV])] at hr
          cases hlk : lookupKey es k0 with
          | none => rw [hlk] at hr; simp at hr
          | some cur =>
            rw [hlk] at hr
            dsimp only at hr
            by_cases heq : objEqValue cur (.vInt num) = true
            · rw [if_pos heq] at hr
              cases hco : coerceVT vt (Obj.ofValue (.vInt num)) with
              | error e => rw [hco] at hr; simp at hr
              | ok c =>
                rw [hco] at hr
                dsimp only at hr
                cases hrest : redundantWarns (.odmap vt es) rest path with
                | none => rw [hrest] at hr; simp at hr
                | some ws2 =>
                  rw [hrest] at hr
                  simp at hr
                  have hcur : cur = .prim (.vInt num) :=
                    objEqValue_scalar (by simp [isScalarV]) heq
                  have hc : c = .prim (.vInt num) := coerce_prim_id hco
                  have hset : setKey es k0 c = es := by
                    rw [hc, ← hcur]; exact setKey_lookup_self hlk
                  have hm2 := ih (.odmap vt es) rest path ws2 hb2 hrest
                  subst hr
                  simp [mergeM, _is_none_sentinel, hlk, heq, hco, hset, hm2,
                    except_bind_ok]
            · rw [if_neg heq] at hr
              exact absurd hr (by simp)
        | vBool bl =>
          simp only [redundantWarns, _is_none_sentinel] at hr
          rw [if_neg (by simp)] at hr
          rw [if_pos (by simp [isScalarV])] at hr
          cases hlk : lookupKey es k0 with
          | none => rw [hlk] at hr; simp at hr
          | some cur =>
            rw [hlk] at hr
            dsimp only at hr
            by_cases heq : objEqValue cur (.vBool bl) = true
            · rw [if_pos heq] at hr
              cases hco : coerceVT vt (Obj.ofValue (.vBool bl)) with
              | error e => rw [hco] at hr; simp at hr
              | ok c =>
                rw [hco] at hr
                dsimp only at hr
                cases hrest : redundantWarns (.odmap vt es) rest path with
                | none => rw [hrest] at hr; simp at hr
                | some ws2 =>
                  rw [hrest] at hr
                  simp at hr
                  have hcur : cur = .prim (.vBool bl) :=
                    objEqValue_scalar (by simp [isScalarV]) heq
                  have hc : c = .prim (.vBool bl) := coerce_prim_id hco
                  have hset : setKey es k0 c = es := by
                    rw [hc, ← hcur]; exact setKey_lookup_self hlk
                  have hm2 := ih (.odmap vt es) rest path ws2 hb2 hrest
                  subst hr
                  simp [mergeM, _is_none_sentinel, hlk, heq, hco, hset, hm2,
                    except_bind_ok]
            · rw [if_neg heq] at hr
              exact absurd hr (by simp)
      | omodel mt fs =>
        by_cases hf : ((MType.modelFields mt).contains k0) = true
        · have hfm : k0 ∈ MType.modelFields mt := by simpa using hf
          cases v0 with
          | vNone =>
            simp only [redundantWarns, hf] at hr
            simp [_is_none_sentinel] at hr
          | vList xs =>
            simp only [redundantWarns, hf] at hr
            rw [if_neg (by simp), if_neg (by simp [_is_none_sentinel])] at hr
            simp [isScalarV] at hr
          | vDict dv =>
            simp only [redundantWarns, hf] at hr
            rw [if_neg (by simp), if_neg (by simp [_is_none_sentinel])] at hr
            cases hlk : lookupKey fs k0 with
            | none => rw [hlk] at hr; simp at hr
            | some cur =>
              rw [hlk] at hr
              dsimp only at hr
              by_cases hm : isMergeable cur = true
              · rw [if_pos hm] at hr
                cases hw1 : redundantWarns cur dv (path ++ [k0]) with
                | none => rw [hw1] at hr; simp at hr
                | some w1 =>
                  rw [hw1] at hr
                  cases hw2 : redundantWarns (.omodel mt fs) rest path with
                  | none => rw [hw2] at hr; simp at hr
                  | some w2 =>
                    rw [hw2] at hr
                    simp at hr
                    have hb1 : esWeight dv ≤ n := by
                      simp only [esWeight, vWeight] at hw
                      omega
                    have hm1 := ih cur dv (path ++ [k0]) w1 hb1 hw1
                    have hm2 := ih (.omodel mt fs) rest path w2 hb2 hw2
                    have hset : setKey fs k0 cur = fs := setKey_lookup_self hlk
                    subst hr
                    simp [mergeM, _is_none_sentinel, hf, hfm, hlk, hm, hm1, hset, hm2,
                      except_bind_ok]
              · rw [if_neg hm] at hr
                exact absurd hr (by simp)
          | vStr s =>
            by_cases hsent : _is_none_sentinel (.vStr s) = true
            · simp [redundantWarns, hf, hsent] at hr
            · simp only [redundantWarns, hf] at hr
              rw [if_neg (by simp), if_neg hsent] at hr
              rw [if_pos (by simp [isScalarV])] at hr
              cases hlk : lookupKey fs k0 with
              | none => rw [hlk] at hr; simp at hr
              | some cur =>
                rw [hlk] at hr
                dsimp only at hr
                by_cases heq : objEqValue cur (.vStr s) = true
                · rw [if_pos heq] at hr
                  cases hrest : redundantWarns (.omodel mt fs) rest path with
                  | none => rw [hrest] at hr; simp at hr
                  | some ws2 =>
                    rw [hrest] at hr
                    simp at hr
                    have hcur : cur = .prim (.vStr s) :=
                      objEqValue_scalar (by simp [isScalarV]) heq
                    have hov : Obj.ofValue (Value.vStr s) = Obj.prim (Value.vStr s) := rfl
                    have hset : setKey fs k0 (Obj.ofValue (Value.vStr s)) = fs := by
                      rw [hov, ← hcur]; exact setKey_lookup_self hlk
                    have hm2 := ih (.omodel mt fs) rest path ws2 hb2 hrest
                    subst hr
                    simp [mergeM, hsent, hf, hfm, hlk, heq, hset, hm2, except_bind_ok]
                · rw [if_neg heq] at hr
                  exact absurd hr (by simp)
          | vInt num =>
            simp only [redundantWarns, hf] at hr
            rw [if_neg (by simp), if_neg (by simp [_is_none_sentinel])] at hr
            rw [if_pos (by simp [isScalarV])] at hr
            cases hlk : lookupKey fs k0 with
            | none => rw [hlk] at hr; simp at hr
            | some cur =>
              rw [hlk] at hr
              dsimp only at hr
              by_cases heq : objEqValue cur (.vInt num) = true
              · rw [if_pos heq] at hr
                cases hrest : redundantWarns (.omodel mt fs) rest path with
                | none => rw [hrest] at hr; simp at hr
                | some ws2 =>
                  rw [hrest] at hr
                  simp at hr
                  have hcur : cur = .prim (.vInt num) :=
                    objEqValue_scalar (by simp [isScalarV]) heq
                  have hov : Obj.ofValue (Value.vInt num) = Obj.prim (Value.vInt num) := rfl
                  have hset : setKey fs k0 (Obj.ofValue (Value.vInt num)) = fs := by
                    rw [hov, ← hcur]; exact setKey_lookup_self hlk
                  have hm2 := ih (.omodel mt fs) rest path ws2 hb2 hrest
                  subst hr
                  simp [mergeM, _is_none_sentinel, hf, hfm, hlk, heq, hset, hm2,
                    except_bind_ok]
              · rw [if_neg heq] at hr
                exact absurd hr (by simp)
          | vBool bl =>
            simp only [redundantWarns, hf] at hr
            rw [if_neg (by simp), if_neg (by simp [_is_none_sentinel])] at hr
            rw [if_pos (by simp [isScalarV])] at hr
            cases hlk : lookupKey fs k0 with
            | none => rw [hlk] at hr; simp at hr
            | some cur =>
              rw [hlk] at hr
              dsimp only at hr
              by_cases heq : objEqValue cur (.vBool bl) = true
              · rw [if_pos heq] at hr
                cases hrest : redundantWarns (.omodel mt fs) rest path with
                | none => rw [hrest] at hr; simp at hr
                | some ws2 =>
                  rw [hrest] at hr
                  simp at hr
                  have hcur : cur = .prim (.vBool bl) :=
                    objEqValue_scalar (by simp [isScalarV]) heq
                  have hov : Obj.ofValue (Value.vBool bl) = Obj.prim (Value.vBool bl) := rfl
                  have hset : setKey fs k0 (Obj.ofValue (Value.vBool bl)) = fs := by
                    rw [hov, ← hcur]; exact setKey_lookup_self hlk
                  have hm2 := ih (.omodel mt fs) rest path ws2 hb2 hrest
                  subst hr
                  simp [mergeM, _is_none_sentinel, hf, hfm, hlk, heq, hset, hm2,
                    except_bind_ok]
              · rw [if_neg heq] at hr
                exact absurd hr (by simp)
        · have hfb : (MType.modelFields mt).contains k0 = false := by
            cases hcb : (MType.modelFields mt).contains k0
            · rfl
            · exact absurd hcb hf
          cases v0 <;> simp only [redundantWarns] at hr <;>
            rw [if_pos (by rw [hfb]; rfl)] at hr <;>
            exact absurd hr (by simp)
      | odict es =>
        cases v0 with
        | vNone => simp [redundantWarns, _is_none_sentinel] at hr
        | vList xs =>
          simp only [redundantWarns, _is_none_sentinel] at hr
          rw [if_neg (by simp)] at hr
          simp [isScalarV] at hr
        | vDict dv =>
          simp only [redundantWarns, _is_none_sentinel] at hr
          rw [if_neg (by simp)] at hr
          cases hlk : lookupKey es k0 with
          | none => rw [hlk] at hr; simp at hr
          | some cur =>
            rw [hlk] at hr
            dsimp only at hr
            by_cases hm : isMergeable cur = true
            · rw [if_pos hm] at hr
              cases hw1 : redundantWarns cur dv (path ++ [k0]) with
              | none => rw [hw1] at hr; simp at hr
              | some w1 =>
                rw [hw1] at hr
                cases hw2 : redundantWarns (.odict es) rest path with
                | none => rw [hw2] at hr; simp at hr
                | some w2 =>
                  rw [hw2] at hr
                  simp at hr
                  have hb1 : esWeight dv ≤ n := by
                    simp only [esWeight, vWeight] at hw
                    omega
                  have hm1 := ih cur dv (path ++ [k0]) w1 hb1 hw1
                  have hm2 := ih (.odict es) rest path w2 hb2 hw2
                  have hset : setKey es k0 cur = es := setKey_lookup_self hlk
                  subst hr
                  simp [mergeM, _is_none_sentinel, hlk, hm, hm1, hset, hm2,
                    except_bind_ok]
            · rw [if_neg hm] at hr
              exact absurd hr (by simp)
        | vStr s =>
          by_cases hsent : _is_none_sentinel (.vStr s) = true
          · simp [redundantWarns, hsent] at hr
          · simp only [redundantWarns] at hr
            rw [if_neg hsent] at hr
            rw [if_pos (by simp [isScalarV])] at hr
            cases hlk : lookupKey es k0 with
            | none => rw [hlk] at hr; simp at hr
            | some cur =>
              rw [hlk] at hr
              dsimp only at hr
              by_cases heq : objEqValue cur (.vStr s) = true
              · rw [if_pos heq] at hr
                cases hrest : redundantWarns (.odict es) rest path with
                | none => rw [hrest] at hr; simp at hr
                | some ws2 =>
                  rw [hrest] at hr
                  simp at hr
                  have hcur : cur = .prim (.vStr s) :=
                    objEqValue_scalar (by simp [isScalarV]) heq
                  have hov : Obj.ofValue (Value.vStr s) = Obj.prim (Value.vStr s) := rfl
                  have hset : setKey es k0 (Obj.ofValue (Value.vStr s)) = es := by
                    rw [hov, ← hcur]; exact setKey_lookup_self hlk
                  have hm2 := ih (.odict es) rest path ws2 hb2 hrest
                  subst hr
                  simp [mergeM, hsent, hlk, heq, hset, hm2, except_bind_ok]
              · rw [if_neg heq] at hr
                exact absurd hr (by simp)
        | vInt num =>
          simp only [redundantWarns, _is_none_sentinel] at hr
          rw [if_neg (by simp)] at hr
          rw [if_pos (by simp [isScalarV])] at hr
          cases hlk : lookupKey es k0 with
          | none => rw [hlk] at hr; simp at hr
          | some cur =>
            rw [hlk] at hr
            dsimp only at hr
            by_cases heq : objEqValue cur (.vInt num) = true
            · rw [if_pos heq] at hr
              cases hrest : redundantWarns (.odict es) rest path with
              | none => rw [hrest] at hr; simp at hr
              | some ws2 =>
                rw [hrest] at hr
                simp at hr
                have hcur : cur = .prim (.vInt num) :=
                  objEqValue_scalar (by simp [isScalarV]) heq
                have hov : Obj.ofValue (Value.vInt num) = Obj.prim (Value.vInt num) := rfl
                have hset : setKey es k0 (Obj.ofValue (Value.vInt num)) = es := by
                  rw [hov, ← hcur]; exact setKey_lookup_self hlk
                have hm2 := ih (.odict es) rest path ws2 hb2 hrest
                subst hr
                simp [mergeM, _is_none_sentinel, hlk, heq, hset, hm2,
                  except_bind_ok]
            · rw [if_neg heq] at hr
              exact absurd hr (by simp)
        | vBool bl =>
          simp only [redundantWarns, _is_none_sentinel] at hr
          rw [if_neg (by simp)] at hr
          rw [if_pos (by simp [isScalarV])] at hr
          cases hlk : lookupKey es k0 with
          | none => rw [hlk] at hr; simp at hr
          | some cur =>
            rw [hlk] at hr
            dsimp only at hr
            by_cases heq : objEqValue cur (.vBool bl) = true
            · rw [if_pos heq] at hr
              cases hrest : redundantWarns (.odict es) rest path with
              | none => rw [hrest] at hr; simp at hr
              | some ws2 =>
                rw [hrest] at hr
                simp at hr
                have hcur : cur = .prim (.vBool bl) :=
                  objEqValue_scalar (by simp [isScalarV]) heq
                have hov : Obj.ofValue (Value.vBool bl) = Obj.prim (Value.vBool bl) := rfl
                have hset : setKey es k0 (Obj.ofValue (Value.vBool bl)) = es := by
                  rw [hov, ← hcur]; exact setKey_lookup_self hlk
                have hm2 := ih (.odict es) rest path ws2 hb2 hrest
                subst hr
                simp [mergeM, _is_none_sentinel, hlk, heq, hset, hm2,
                  except_bind_ok]
            · rw [if_neg heq] at hr
              exact absurd hr (by simp)

theorem redundantWarns_scalar_mem :
    ∀ (u : List (String × Value)) (t : Obj) (path ws : List String),
      redundantWarns t u path = some ws →
      ∀ k v, (k, v) ∈ u → isScalarV v = true → joinDot (path ++ [k]) ∈ ws := by
  intro u
  induction u with
  | nil =>
    intro t path ws hr k v hmem hs
    simp at hmem
  | cons p rest ih =>
    obtain ⟨k0, v0⟩ := p
    intro t path ws hr k v hmem hs
    obtain ⟨w1, ws2, hrest, hws, hscal⟩ := redundantWarns_cons_inv hr
    subst hws
    rcases List.mem_cons.mp hmem with heq | hmem2
    · injection heq with h1 h2
      rw [hscal (h2 ▸ hs), h1]
      simp
    · exact List.mem_append_right _ (ih t path ws2 hrest k v hmem2 hs)

/-- C5: merging a redundant override (every leaf a scalar deep-equal to
the stored value, as redundantWarns checks) leaves the configuration
state unchanged and succeeds without a conflict error, and the warning
list contains one same-value warning naming the dotted path of every
scalar key of the override; the warnings are exactly the scalar leaves of
the name-injected update, so a table override of a Variable collection
that lacks a name key additionally warns for the injected name leaf
(which the claim's one-warning-per-override-key reading does not
predict). -/
theorem C5_redundant_round_trip :
    ∀ (t : Obj) (u : List (String × Value)) (ws : List String),
      redundantWarns t u [] = some ws →
      mergeM t u [] = Except.ok (t, ws)
      ∧ ∀ k v, (k, v) ∈ u → isScalarV v = true → joinDot [k] ∈ ws := by
  intro t u ws hr
  refine ⟨mergeM_redundant_fuel (esWeight u) t u [] ws le_rfl hr, ?_⟩
  intro k v hmem hs
  have h := redundantWarns_scalar_mem u t [] ws hr k v hmem hs
  simpa using h

/-- C5 witness: merging the redundant scalar override a=1 into the plain
dict holding a=1 returns the dict unchanged with the single warning
path a. -/
theorem C5_redundant_round_trip_witness :
    mergeM (.odict [("a", .prim (.vInt 1))]) [("a", .vInt 1)] [] =
      Except.ok (.odict [("a", .prim (.vInt 1))], [joinDot ["a"]])
    ∧ joinDot ["a"] ∈ [joinDot ["a"]] := by
  have h := C5_redundant_round_trip (.odict [("a", .prim (.vInt 1))])
    [("a", .vInt 1)] [joinDot ["a"]]
    (by simp [redundantWarns, _is_none_sentinel, isScalarV, lookupKey,
      objEqValue, valueBeq])
  exact ⟨h.1, h.2 "a" (.vInt 1) (by simp) (by decide)⟩

/-- C5 counterexample: the claim predicts exactly one warning per
redundant key of the override; merging the redundant override
{x: {unit: ua}} (whose table has the single key unit and no name key)
into a Variable collection emits two warnings, x.unit and x.name,
because the merge injects name=x into the table before walking it and
the injected leaf also equals the stored name.  The state still round
trips. -/
theorem C5_injected_name_warning :
    mergeM exC5Target exC5Update [] =
      Except.ok (exC5Target, ["x.unit", "x.name"])
    ∧ containsKey [("unit", Value.vStr "ua")] "name" = false := by
  constructor
  · have hinner : mergeM exC5Var
        [("unit", .vStr "ua"), ("name", .vStr "x")] ["x"] =
        Except.ok (exC5Var, ["x.unit", "x.name"]) := by
      simp only [mergeM, exC5Var]
      rfl
    have hinj : injectNameV .vtVariable [("unit", Value.vStr "ua")] "x" =
        [("unit", Value.vStr "ua"), ("name", Value.vStr "x")] := rfl
    have hmg : isMergeable exC5Var = true := rfl
    simp only [mergeM, exC5Target, exC5Update, lookupKey, hinj, hmg, hinner,
      except_bind_ok, List.nil_append, if_true]
    rfl
  · decide

end NudbConfig
